import Mathlib

/-!
Verification of the best-transactions iterator family of
crates/transaction-pool/src/pool/best.rs.

The state of the iterator (the struct BestTransactions) is embedded as a
record over lists: the BTreeMap all as an association list, the BTreeSet
independent as a duplicate-free list whose maximal element is popped, the
HashSet invalid as a list of sender ids, and the tokio broadcast receiver as
an optional list of channel items (a message or a Lagged marker).  Machine
integers (u64/u128 fees, nonces, gas) are modelled as Nat: none of the
verified code paths perform arithmetic that can wrap (the only additions are
nonce+1 and the gas accumulation that is guarded by a comparison before it
is committed).

The loop in each next() is expressed with an explicit fuel parameter
(structural recursion); fuel exhaustion yields the neutral answer (none,
state).  On states satisfying the iterator invariant each iteration of the
source loop strictly shrinks the pool, so any fuel larger than the pool
size computes the exact source behaviour; all universally quantified
theorems below hold for every fuel value.
-/

/-- TransactionId. Modelled from the spec: the identifier module is not part
of the source slice; the spec defines a TransactionId as a
(sender_id, nonce) pair whose unchecked_ancestor is (s, n-1) when n > 0. -/
structure TransactionId where
  sender : Nat
  nonce : Nat
deriving DecidableEq, Repr

/-- Modelled from the spec: unchecked_ancestor returns None only when
nonce = 0, otherwise the id with the previous nonce. -/
def TransactionId.unchecked_ancestor (id : TransactionId) : Option TransactionId :=
  match id.nonce with
  | 0 => none
  | Nat.succ n => some { sender := id.sender, nonce := n }

/-- The fields of a ValidPoolTransaction that best.rs reads: its id parts,
its sender address (used by the prioritized-senders wrapper), gas limit,
the two fee fields checked by BestTransactionsWithFees, and the
transaction-type test is_eip4844 used by the blob filter.  Hashes and
addresses are interned as naturals. -/
structure Transaction where
  hash : Nat
  sender_id : Nat
  sender : Nat
  nonce : Nat
  gas_limit : Nat
  max_fee_per_gas : Nat
  max_fee_per_blob_gas : Option Nat
  is_eip4844 : Bool
deriving DecidableEq, Repr

/-- The transaction id of a transaction, (sender_id, nonce). -/
def Transaction.id (t : Transaction) : TransactionId :=
  { sender := t.sender_id, nonce := t.nonce }

/-- A PendingTransaction as stored in the iterator: the transaction, the
submission id and the precomputed priority value.  Modelled from the spec:
the pending-pool module is not part of the source slice; the spec describes
a pluggable totally ordered scalar priority ("higher wins"), embedded here
as Nat. -/
structure PendingTransaction where
  submission_id : Nat
  transaction : Transaction
  priority : Nat
deriving DecidableEq, Repr

/-- Modelled from the spec: ordering inside independent is by priority with
submission_id as tiebreaker, the earlier submission winning ties; below a b
states that b is the strictly better (greater) element of the BTreeSet
order. -/
def PendingTransaction.below (a b : PendingTransaction) : Bool :=
  decide (a.priority < b.priority) ||
    (decide (a.priority = b.priority) && decide (b.submission_id < a.submission_id))

/-- Equality in the BTreeSet order: same priority and same submission id. -/
def PendingTransaction.ordEq (a b : PendingTransaction) : Bool :=
  decide (a.priority = b.priority) && decide (a.submission_id = b.submission_id)

/-- Modelled from the spec: PendingTransaction::unlocks is the unique
descendant id (sender, nonce + 1) looked up by next(). -/
def PendingTransaction.unlocks (p : PendingTransaction) : TransactionId :=
  { sender := p.transaction.sender_id, nonce := p.transaction.nonce + 1 }

/-- BTreeSet::insert semantics on the independent set: inserting an element
that is already present under the set order leaves the set unchanged. -/
def setInsert (p : PendingTransaction) (l : List PendingTransaction) : List PendingTransaction :=
  if l.any (fun q => PendingTransaction.ordEq q p) then l else p :: l

/-- BTreeSet::pop_last: remove and return the greatest element under the set
order (position in the list is irrelevant, only the order is). -/
def popLast : List PendingTransaction → Option (PendingTransaction × List PendingTransaction)
  | [] => none
  | p :: rest =>
    match popLast rest with
    | none => some (p, [])
    | some (q, rest2) =>
      if PendingTransaction.below p q then some (q, p :: rest2) else some (p, rest)

/-- BTreeMap::get on the association list modelling the all map. -/
def mapLookup (k : TransactionId) (m : List (TransactionId × PendingTransaction)) :
    Option PendingTransaction :=
  match m.find? (fun e => e.1 == k) with
  | some e => some e.2
  | none => none

/-- BTreeMap::remove: drop the entry with the given key. -/
def mapRemove (k : TransactionId) (m : List (TransactionId × PendingTransaction)) :
    List (TransactionId × PendingTransaction) :=
  m.filter (fun e => !(e.1 == k))

/-- BTreeMap::insert: replace any existing entry with the given key. -/
def mapInsert (k : TransactionId) (v : PendingTransaction)
    (m : List (TransactionId × PendingTransaction)) :
    List (TransactionId × PendingTransaction) :=
  (k, v) :: mapRemove k m

/-- One observation of the broadcast channel: a delivered pending
transaction or the Lagged error marker of tokio try_recv. -/
inductive ChanItem where
  | msg (tx : PendingTransaction) : ChanItem
  | lagged : ChanItem
deriving DecidableEq, Repr

/-- The struct BestTransactions of best.rs: the snapshot map all, the
independent set, the invalid sender set, the optional live-update receiver
(its still-undelivered items), the last yielded priority and the blob-skip
flag. -/
structure BestTransactions where
  all : List (TransactionId × PendingTransaction)
  independent : List PendingTransaction
  invalid : List Nat
  new_transaction_receiver : Option (List ChanItem)
  last_priority : Option Nat
  skip_blobs : Bool
deriving DecidableEq, Repr

/-- BestTransactions::mark_invalid: record the sender id of the transaction
(the kind argument of the source is ignored there, bound as an underscore
pattern). -/
def BestTransactions.mark_invalid (s : BestTransactions) (t : Transaction) : BestTransactions :=
  { s with invalid := if s.invalid.contains t.sender_id then s.invalid else t.sender_id :: s.invalid }

/-- BestTransactions::ancestor: look up the unchecked ancestor of the id in
the all map. -/
def BestTransactions.ancestor (s : BestTransactions) (id : TransactionId) :
    Option PendingTransaction :=
  match id.unchecked_ancestor with
  | none => none
  | some a => mapLookup a s.all

/-- The drain loop inside BestTransactions::try_recv: Lagged markers are
skipped and draining continues; a delivered transaction whose priority
exceeds the last yielded priority is consumed but not surfaced (None is
returned); an exhausted channel returns None. -/
def tryRecvGo (lp : Option Nat) : List ChanItem → Option PendingTransaction × List ChanItem
  | [] => (none, [])
  | ChanItem.lagged :: rest => tryRecvGo lp rest
  | ChanItem.msg tx :: rest =>
    match lp with
    | some l => if l < tx.priority then (none, rest) else (some tx, rest)
    | none => (some tx, rest)

/-- BestTransactions::try_recv: non-blocking read of the subscription
channel; returns None immediately when no receiver is installed. -/
def BestTransactions.try_recv (s : BestTransactions) :
    Option PendingTransaction × BestTransactions :=
  match s.new_transaction_receiver with
  | none => (none, s)
  | some items =>
    match tryRecvGo s.last_priority items with
    | (r, rest) => (r, { s with new_transaction_receiver := some rest })

/-- BestTransactions::pop_best: remove the greatest independent transaction
from the independent set and delete its id from the all map. -/
def BestTransactions.pop_best (s : BestTransactions) :
    Option PendingTransaction × BestTransactions :=
  match popLast s.independent with
  | none => (none, s)
  | some (best, rest) =>
    (some best,
      { s with independent := rest, all := mapRemove best.transaction.id s.all })

/-- The body of the while loop of add_new_transactions for one received
transaction: insert into independent iff the ancestor is not currently in
the all map, then insert into all. -/
def BestTransactions.insertNew (s : BestTransactions) (tx : PendingTransaction) :
    BestTransactions :=
  let txId := tx.transaction.id
  let s1 :=
    if (s.ancestor txId).isNone then { s with independent := setInsert tx s.independent } else s
  { s1 with all := mapInsert txId tx s1.all }

/-- Number of undelivered channel items; an upper bound on the iterations of
the drain loop, used as its structural fuel. -/
def BestTransactions.chanLen (s : BestTransactions) : Nat :=
  match s.new_transaction_receiver with
  | none => 0
  | some items => items.length

/-- The while let loop of add_new_transactions, structurally recursive on a
fuel that bounds the number of channel reads. -/
def addNewGo : Nat → BestTransactions → BestTransactions
  | 0, s => s
  | Nat.succ n, s =>
    match s.try_recv with
    | (none, s1) => s1
    | (some tx, s1) => addNewGo n (s1.insertNew tx)

/-- BestTransactions::add_new_transactions: drain the channel, inserting
each surfaced transaction; a channel of length n needs at most n reads. -/
def BestTransactions.add_new_transactions (s : BestTransactions) : BestTransactions :=
  addNewGo s.chanLen s

/-- The Iterator::next loop of BestTransactions, with explicit fuel for the
continue paths (invalid sender, skipped blob).  It returns the yielded
transaction, if any, together with the mutated iterator state (the source
mutates self even when it eventually returns None). -/
def BestTransactions.next : Nat → BestTransactions → Option Transaction × BestTransactions
  | 0, s => (none, s)
  | Nat.succ fuel, s =>
    let s0 := s.add_new_transactions
    match s0.pop_best with
    | (none, s1) => (none, s1)
    | (some best, s1) =>
      if s1.invalid.contains best.transaction.sender_id then
        BestTransactions.next fuel s1
      else
        let s2 :=
          match mapLookup best.unlocks s1.all with
          | some unlocked => { s1 with independent := setInsert unlocked s1.independent }
          | none => s1
        if s2.skip_blobs && best.transaction.is_eip4844 then
          BestTransactions.next fuel (s2.mark_invalid best.transaction)
        else
          let s3 :=
            if s2.new_transaction_receiver.isSome then
              { s2 with last_priority := some best.priority }
            else s2
          (some best.transaction, s3)

/-- BestTransactions::no_updates: drop the receiver and the last priority. -/
def BestTransactions.no_updates (s : BestTransactions) : BestTransactions :=
  { s with new_transaction_receiver := none, last_priority := none }

/-- BestTransactions::set_skip_blobs. -/
def BestTransactions.set_skip_blobs (s : BestTransactions) (b : Bool) : BestTransactions :=
  { s with skip_blobs := b }

/-- Collect up to steps yields of the iterator, each next call running with
the given fuel. -/
def collectBest : Nat → Nat → BestTransactions → List Transaction
  | 0, _, _ => []
  | Nat.succ steps, fuel, s =>
    match BestTransactions.next fuel s with
    | (none, _) => []
    | (some t, s1) => t :: collectBest steps fuel s1

/-- The struct BestTransactionsWithFees: the inner iterator plus the
enforced base fee and blob fee. -/
structure BestTransactionsWithFees where
  best : BestTransactions
  base_fee : Nat
  base_fee_per_blob_gas : Nat
deriving DecidableEq, Repr

/-- The fee test of BestTransactionsWithFees::next: max_fee_per_gas at least
the base fee, and max_fee_per_blob_gas (when present) at least the blob
fee (is_none_or in the source). -/
def satisfiesFees (t : Transaction) (base blob : Nat) : Bool :=
  decide (base ≤ t.max_fee_per_gas) &&
    (match t.max_fee_per_blob_gas with
     | none => true
     | some f => decide (blob ≤ f))

/-- The Iterator::next loop of BestTransactionsWithFees: yield the first
inner transaction passing the fee test, marking every failing candidate
invalid (which records its sender in the inner iterator). -/
def BestTransactionsWithFees.next :
    Nat → Nat → BestTransactionsWithFees → Option Transaction × BestTransactionsWithFees
  | 0, _, s => (none, s)
  | Nat.succ fuel, innerFuel, s =>
    match BestTransactions.next innerFuel s.best with
    | (none, b1) => (none, { s with best := b1 })
    | (some tx, b1) =>
      if satisfiesFees tx s.base_fee s.base_fee_per_blob_gas then
        (some tx, { s with best := b1 })
      else
        BestTransactionsWithFees.next fuel innerFuel { s with best := b1.mark_invalid tx }

/-- The struct BestTransactionFilter over the concrete inner iterator. -/
structure BestTransactionFilter where
  best : BestTransactions
  predicate : Transaction → Bool

/-- The Iterator::next loop of BestTransactionFilter: yield the first inner
transaction satisfying the predicate, marking every failing one invalid in
the inner iterator. -/
def BestTransactionFilter.next :
    Nat → Nat → BestTransactionFilter → Option Transaction × BestTransactionFilter
  | 0, _, s => (none, s)
  | Nat.succ fuel, innerFuel, s =>
    match BestTransactions.next innerFuel s.best with
    | (none, b1) => (none, { s with best := b1 })
    | (some tx, b1) =>
      if s.predicate tx then (some tx, { s with best := b1 })
      else BestTransactionFilter.next fuel innerFuel { s with best := b1.mark_invalid tx }

/-- The struct BestTransactionsWithPrioritizedSenders.  The generic inner
iterator is embedded as the list of items it will yield in order; buffer is
the VecDeque of deferred non-prioritized items. -/
structure BestTransactionsWithPrioritizedSenders where
  inner : List Transaction
  prioritized_senders : List Nat
  max_prioritized_gas : Nat
  buffer : List Transaction
  prioritized_gas : Nat
deriving DecidableEq, Repr

/-- BestTransactionsWithPrioritizedSenders::new: empty buffer, zero gas
used. -/
def BestTransactionsWithPrioritizedSenders.new (senders : List Nat) (maxGas : Nat)
    (inner : List Transaction) : BestTransactionsWithPrioritizedSenders :=
  { inner := inner, prioritized_senders := senders, max_prioritized_gas := maxGas,
    buffer := [], prioritized_gas := 0 }

/-- The for loop inside next: scan the inner iterator for the first item
from a prioritized sender that fits under the gas cap, pushing every
skipped item onto the buffer; returns the found item with the rest of the
inner iterator, and the grown buffer. -/
def prioScan (senders : List Nat) (maxGas gas : Nat) :
    List Transaction → List Transaction →
      Option (Transaction × List Transaction) × List Transaction
  | buf, [] => (none, buf)
  | buf, t :: rest =>
    if senders.contains t.sender && decide (gas + t.gas_limit ≤ maxGas) then
      (some (t, rest), buf)
    else
      prioScan senders maxGas gas (buf ++ [t]) rest

/-- The tail of next after the prioritizing scan: pop the buffer front,
falling back to the inner iterator. -/
def afterScan (s : BestTransactionsWithPrioritizedSenders) :
    Option (Transaction × BestTransactionsWithPrioritizedSenders) :=
  match s.buffer with
  | t :: rest => some (t, { s with buffer := rest })
  | [] =>
    match s.inner with
    | t :: rest => some (t, { s with inner := rest })
    | [] => none

/-- The Iterator::next of BestTransactionsWithPrioritizedSenders: while gas
remains under the cap, scan for a prioritized item (accumulating its gas
limit); otherwise, and after an unsuccessful scan (which exhausts the inner
iterator into the buffer), replay the buffer then the inner iterator. -/
def BestTransactionsWithPrioritizedSenders.next (s : BestTransactionsWithPrioritizedSenders) :
    Option (Transaction × BestTransactionsWithPrioritizedSenders) :=
  if s.prioritized_gas < s.max_prioritized_gas then
    match prioScan s.prioritized_senders s.max_prioritized_gas s.prioritized_gas s.buffer s.inner with
    | (some (t, rest), buf1) =>
      some (t, { s with inner := rest, buffer := buf1,
                        prioritized_gas := s.prioritized_gas + t.gas_limit })
    | (none, buf1) => afterScan { s with inner := [], buffer := buf1 }
  else afterScan s

/-- Collect up to steps yields of the prioritized-senders wrapper. -/
def collectPrioritized : Nat → BestTransactionsWithPrioritizedSenders → List Transaction
  | 0, _ => []
  | Nat.succ steps, s =>
    match s.next with
    | none => []
    | some (t, s1) => t :: collectPrioritized steps s1

/-! Basic lemmas about the container operations of the embedding. -/

theorem popLast_eq_none {l : List PendingTransaction} : popLast l = none ↔ l = [] := by
  cases l with
  | nil => simp [popLast]
  | cons p rest =>
    cases hr : popLast rest with
    | none => simp [popLast, hr]
    | some pr => simp only [popLast, hr]; split <;> simp

theorem popLast_perm {l : List PendingTransaction} {b : PendingTransaction}
    {r : List PendingTransaction} (h : popLast l = some (b, r)) : l.Perm (b :: r) := by
  induction l generalizing b r with
  | nil => simp [popLast] at h
  | cons p rest ih =>
    cases hr : popLast rest with
    | none =>
      have hrest : rest = [] := popLast_eq_none.mp hr
      subst hrest
      simp only [popLast, Option.some.injEq, Prod.mk.injEq] at h
      obtain ⟨h1, h2⟩ := h
      subst h1; subst h2
      exact List.Perm.refl _
    | some pr =>
      obtain ⟨q, r2⟩ := pr
      have hperm := ih hr
      simp only [popLast, hr] at h
      split at h <;> simp only [Option.some.injEq, Prod.mk.injEq] at h <;>
        obtain ⟨h1, h2⟩ := h <;> subst h1 <;> subst h2
      · exact List.Perm.trans (List.Perm.cons p hperm) (List.Perm.swap _ p r2)
      · exact List.Perm.refl _

theorem popLast_priority_max {l : List PendingTransaction} {b : PendingTransaction}
    {r : List PendingTransaction} (h : popLast l = some (b, r)) :
    ∀ p ∈ l, p.priority ≤ b.priority := by
  induction l generalizing b r with
  | nil => simp [popLast] at h
  | cons p rest ih =>
    cases hr : popLast rest with
    | none =>
      have hrest : rest = [] := popLast_eq_none.mp hr
      subst hrest
      simp only [popLast, Option.some.injEq, Prod.mk.injEq] at h
      obtain ⟨h1, _⟩ := h
      subst h1
      intro x hx
      simp only [List.mem_singleton] at hx
      subst hx
      exact Nat.le_refl _
    | some pr =>
      obtain ⟨q, r2⟩ := pr
      have hmax := ih hr
      simp only [popLast, hr] at h
      split at h <;> rename_i hbelow <;>
        simp only [Option.some.injEq, Prod.mk.injEq] at h <;> obtain ⟨h1, _⟩ := h <;> subst h1
      · intro x hx
        rcases List.mem_cons.mp hx with hx | hx
        · subst hx
          simp only [PendingTransaction.below, Bool.or_eq_true, Bool.and_eq_true,
            decide_eq_true_eq] at hbelow
          rcases hbelow with hlt | ⟨heq, _⟩
          · exact Nat.le_of_lt hlt
          · exact Nat.le_of_eq heq
        · exact hmax x hx
      · intro x hx
        rcases List.mem_cons.mp hx with hx | hx
        · subst hx; exact Nat.le_refl _
        · have hq : q.priority ≤ p.priority := by
            simp only [PendingTransaction.below, Bool.or_eq_true, Bool.and_eq_true,
              decide_eq_true_eq, not_or, not_and] at hbelow
            omega
          exact Nat.le_trans (hmax x hx) hq

theorem tryRecvGo_some_le {lp : Nat} {items rest : List ChanItem} {tx : PendingTransaction}
    (h : tryRecvGo (some lp) items = (some tx, rest)) : tx.priority ≤ lp := by
  induction items generalizing rest with
  | nil => simp [tryRecvGo] at h
  | cons i is ih =>
    cases i with
    | lagged =>
      simp only [tryRecvGo] at h
      exact ih h
    | msg t =>
      simp only [tryRecvGo] at h
      split at h <;> rename_i hcmp <;>
        simp only [Prod.mk.injEq] at h
      · exact absurd h.1 (by simp)
      · obtain ⟨h1, _⟩ := h
        have ht : t = tx := by simpa using h1
        subst ht
        omega

theorem tryRecvGo_some_length {lp : Option Nat} {items rest : List ChanItem}
    {tx : PendingTransaction} (h : tryRecvGo lp items = (some tx, rest)) :
    rest.length < items.length := by
  induction items generalizing rest with
  | nil => simp [tryRecvGo] at h
  | cons i is ih =>
    cases i with
    | lagged =>
      simp only [tryRecvGo] at h
      have := ih h
      simp only [List.length_cons]
      omega
    | msg t =>
      cases lp with
      | none =>
        simp only [tryRecvGo, Prod.mk.injEq] at h
        obtain ⟨_, h2⟩ := h
        subst h2
        simp
      | some l =>
        simp only [tryRecvGo] at h
        split at h <;> simp only [Prod.mk.injEq] at h
        · exact absurd h.1 (by simp)
        · obtain ⟨_, h2⟩ := h
          subst h2
          simp

theorem tryRecvGo_all_lagged {lp : Option Nat} {items : List ChanItem}
    (h : ∀ i ∈ items, i = ChanItem.lagged) : tryRecvGo lp items = (none, []) := by
  induction items with
  | nil => rfl
  | cons i is ih =>
    have hi : i = ChanItem.lagged := h i (by simp)
    subst hi
    simp only [tryRecvGo]
    exact ih fun j hj => h j (by simp [hj])

/-! Preservation of the untouched state fields by each operation. -/

theorem mark_invalid_fields (s : BestTransactions) (t : Transaction) :
    (s.mark_invalid t).all = s.all ∧ (s.mark_invalid t).independent = s.independent ∧
    (s.mark_invalid t).new_transaction_receiver = s.new_transaction_receiver ∧
    (s.mark_invalid t).last_priority = s.last_priority ∧
    (s.mark_invalid t).skip_blobs = s.skip_blobs := by
  unfold BestTransactions.mark_invalid
  simp

theorem mark_invalid_mem {s : BestTransactions} {sid : Nat} (t : Transaction)
    (h : sid ∈ s.invalid) : sid ∈ (s.mark_invalid t).invalid := by
  unfold BestTransactions.mark_invalid
  split <;> simp [h]

theorem mark_invalid_self_mem (s : BestTransactions) (t : Transaction) :
    t.sender_id ∈ (s.mark_invalid t).invalid := by
  unfold BestTransactions.mark_invalid
  split <;> rename_i hc
  · simpa using List.elem_iff.mp (by simpa using hc)
  · simp

theorem try_recv_fields (s : BestTransactions) :
    (s.try_recv).2.all = s.all ∧ (s.try_recv).2.independent = s.independent ∧
    (s.try_recv).2.invalid = s.invalid ∧ (s.try_recv).2.last_priority = s.last_priority ∧
    (s.try_recv).2.skip_blobs = s.skip_blobs ∧
    (s.try_recv).2.new_transaction_receiver.isSome = s.new_transaction_receiver.isSome := by
  unfold BestTransactions.try_recv
  cases hrec : s.new_transaction_receiver with
  | none => simp [hrec]
  | some items =>
    cases tryRecvGo s.last_priority items with
    | mk r rest => simp [hrec]

theorem insertNew_fields (s : BestTransactions) (tx : PendingTransaction) :
    (s.insertNew tx).invalid = s.invalid ∧
    (s.insertNew tx).new_transaction_receiver = s.new_transaction_receiver ∧
    (s.insertNew tx).last_priority = s.last_priority ∧
    (s.insertNew tx).skip_blobs = s.skip_blobs := by
  unfold BestTransactions.insertNew
  dsimp only
  split <;> simp

theorem addNewGo_fields : ∀ (n : Nat) (s : BestTransactions),
    (addNewGo n s).invalid = s.invalid ∧ (addNewGo n s).skip_blobs = s.skip_blobs ∧
    (addNewGo n s).last_priority = s.last_priority ∧
    (addNewGo n s).new_transaction_receiver.isSome = s.new_transaction_receiver.isSome := by
  intro n
  induction n with
  | zero => intro s; exact ⟨rfl, rfl, rfl, rfl⟩
  | succ n ih =>
    intro s
    simp only [addNewGo]
    rcases htr : s.try_recv with ⟨r, s1⟩
    have hf := try_recv_fields s
    rw [htr] at hf
    rcases r with _ | tx
    · exact ⟨hf.2.2.1, hf.2.2.2.2.1, hf.2.2.2.1, hf.2.2.2.2.2⟩
    · have hins := insertNew_fields s1 tx
      have hih := ih (s1.insertNew tx)
      refine ⟨?_, ?_, ?_, ?_⟩
      · rw [hih.1, hins.1, hf.2.2.1]
      · rw [hih.2.1, hins.2.2.2, hf.2.2.2.2.1]
      · rw [hih.2.2.1, hins.2.2.1, hf.2.2.2.1]
      · rw [hih.2.2.2, hins.2.1, hf.2.2.2.2.2]

theorem add_new_fields (s : BestTransactions) :
    (s.add_new_transactions).invalid = s.invalid ∧
    (s.add_new_transactions).skip_blobs = s.skip_blobs ∧
    (s.add_new_transactions).last_priority = s.last_priority ∧
    (s.add_new_transactions).new_transaction_receiver.isSome =
      s.new_transaction_receiver.isSome :=
  addNewGo_fields s.chanLen s

theorem add_new_none {s : BestTransactions} (h : s.new_transaction_receiver = none) :
    s.add_new_transactions = s := by
  unfold BestTransactions.add_new_transactions BestTransactions.chanLen
  rw [h]
  rfl

theorem pop_best_fields (s : BestTransactions) :
    (s.pop_best).2.invalid = s.invalid ∧
    (s.pop_best).2.new_transaction_receiver = s.new_transaction_receiver ∧
    (s.pop_best).2.last_priority = s.last_priority ∧
    (s.pop_best).2.skip_blobs = s.skip_blobs := by
  unfold BestTransactions.pop_best
  cases popLast s.independent with
  | none => simp
  | some pr => cases pr with | mk b r => simp

/-- A false contains test on the invalid list means non-membership. -/
theorem contains_false_not_mem {l : List Nat} {a : Nat} (hc : l.contains a = false) :
    a ∉ l := by
  intro hmem
  have h2 : l.contains a = true := List.elem_iff.mpr hmem
  rw [h2] at hc
  cases hc

/-- Invalid senders persist across next and are never the sender of a
yielded transaction: the skip branch of the loop guards every yield. -/
theorem next_invalid_mem {sid : Nat} :
    ∀ (fuel : Nat) (s : BestTransactions), sid ∈ s.invalid →
      sid ∈ (BestTransactions.next fuel s).2.invalid ∧
        ∀ t, (BestTransactions.next fuel s).1 = some t → t.sender_id ≠ sid := by
  intro fuel
  induction fuel with
  | zero =>
    intro s h
    exact ⟨h, fun t ht => by simp [BestTransactions.next] at ht⟩
  | succ fuel ih =>
    intro s h
    have h0 : sid ∈ (s.add_new_transactions).invalid := by
      rw [(add_new_fields s).1]; exact h
    simp only [BestTransactions.next]
    rcases hp : (s.add_new_transactions).pop_best with ⟨r, s1⟩
    have hpf := pop_best_fields (s.add_new_transactions)
    rw [hp] at hpf
    have h1 : sid ∈ s1.invalid := by rw [hpf.1]; exact h0
    rcases r with _ | best
    · exact ⟨h1, fun t ht => by simp at ht⟩
    · dsimp only
      cases hc : s1.invalid.contains best.transaction.sender_id with
      | true =>
        simp only [hc, if_true]
        exact ih s1 h1
      | false =>
        simp only [hc, Bool.false_eq_true, if_false]
        have hnot : best.transaction.sender_id ∉ s1.invalid := contains_false_not_mem hc
        have hne : best.transaction.sender_id ≠ sid := fun he => hnot (he ▸ h1)
        rcases hu : mapLookup best.unlocks s1.all with _ | u <;> dsimp only
        · cases hb : s1.skip_blobs && best.transaction.is_eip4844 with
          | true =>
            simp only [hb, if_true]
            refine ih _ (mark_invalid_mem _ h1)
          | false =>
            simp only [hb, Bool.false_eq_true, if_false]
            constructor
            · split <;> exact h1
            · intro t ht
              have he : best.transaction = t := by injection ht
              subst he
              exact hne
        · cases hb : s1.skip_blobs && best.transaction.is_eip4844 with
          | true =>
            simp only [hb, if_true]
            exact ih _ (mark_invalid_mem _ h1)
          | false =>
            simp only [hb, Bool.false_eq_true, if_false]
            constructor
            · split <;> exact h1
            · intro t ht
              have he : best.transaction = t := by injection ht
              subst he
              exact hne

/-- With skip_blobs set, next never yields an EIP-4844 transaction and the
flag stays set. -/
theorem next_skip_blobs :
    ∀ (fuel : Nat) (s : BestTransactions), s.skip_blobs = true →
      (BestTransactions.next fuel s).2.skip_blobs = true ∧
        ∀ t, (BestTransactions.next fuel s).1 = some t → t.is_eip4844 = false := by
  intro fuel
  induction fuel with
  | zero =>
    intro s h
    exact ⟨h, fun t ht => by simp [BestTransactions.next] at ht⟩
  | succ fuel ih =>
    intro s h
    have h0 : (s.add_new_transactions).skip_blobs = true := by
      rw [(add_new_fields s).2.1]; exact h
    simp only [BestTransactions.next]
    rcases hp : (s.add_new_transactions).pop_best with ⟨r, s1⟩
    have hpf := pop_best_fields (s.add_new_transactions)
    rw [hp] at hpf
    have h1 : s1.skip_blobs = true := by rw [hpf.2.2.2]; exact h0
    rcases r with _ | best
    · exact ⟨h1, fun t ht => by simp at ht⟩
    · dsimp only
      cases hc : s1.invalid.contains best.transaction.sender_id with
      | true =>
        simp only [hc, if_true]
        exact ih s1 h1
      | false =>
        simp only [hc, Bool.false_eq_true, if_false]
        rcases hu : mapLookup best.unlocks s1.all with _ | u <;> dsimp only <;>
          cases hb : s1.skip_blobs && best.transaction.is_eip4844
        · simp only [hb, Bool.false_eq_true, if_false]
          refine ⟨by split <;> exact h1, ?_⟩
          intro t ht
          have he : best.transaction = t := by injection ht
          subst he
          rw [h1] at hb
          simpa using hb
        · simp only [hb, if_true]
          exact ih _ (by rw [(mark_invalid_fields _ _).2.2.2.2]; exact h1)
        · simp only [hb, Bool.false_eq_true, if_false]
          refine ⟨by split <;> exact h1, ?_⟩
          intro t ht
          have he : best.transaction = t := by injection ht
          subst he
          rw [h1] at hb
          simpa using hb
        · simp only [hb, if_true]
          exact ih _ (by rw [(mark_invalid_fields _ _).2.2.2.2]; exact h1)

/-- Every transaction yielded by the with-fees wrapper passes the fee test
of its own state (the base fees of the state are never changed by next). -/
theorem with_fees_next_fees :
    ∀ (fuel innerFuel : Nat) (s : BestTransactionsWithFees) (t : Transaction)
      (s1 : BestTransactionsWithFees),
      BestTransactionsWithFees.next fuel innerFuel s = (some t, s1) →
      satisfiesFees t s.base_fee s.base_fee_per_blob_gas = true := by
  intro fuel
  induction fuel with
  | zero =>
    intro g s t s1 h
    simp [BestTransactionsWithFees.next, Prod.ext_iff] at h
  | succ fuel ih =>
    intro g s t s1 h
    simp only [BestTransactionsWithFees.next] at h
    rcases hn : BestTransactions.next g s.best with ⟨r, b1⟩
    rw [hn] at h
    rcases r with _ | tx
    · simp [Prod.ext_iff] at h
    · dsimp only at h
      cases hsf : satisfiesFees tx s.base_fee s.base_fee_per_blob_gas with
      | true =>
        rw [hsf] at h
        simp only [if_true, Prod.mk.injEq, Option.some.injEq] at h
        rw [← h.1]
        exact hsf
      | false =>
        rw [hsf] at h
        simp only [Bool.false_eq_true, if_false] at h
        exact ih g { s with best := b1.mark_invalid tx } t s1 h

/-- A candidate failing the fee test is not yielded: the with-fees loop
continues on the state whose inner iterator has the candidate's sender
marked invalid. -/
theorem with_fees_skip_step (fuel innerFuel : Nat) (s : BestTransactionsWithFees)
    (tx : Transaction) (b1 : BestTransactions)
    (hn : BestTransactions.next innerFuel s.best = (some tx, b1))
    (hf : satisfiesFees tx s.base_fee s.base_fee_per_blob_gas = false) :
    BestTransactionsWithFees.next (fuel + 1) innerFuel s =
      BestTransactionsWithFees.next fuel innerFuel { s with best := b1.mark_invalid tx } := by
  simp only [BestTransactionsWithFees.next, hn, hf, Bool.false_eq_true, if_false]

/-- Every transaction yielded by the predicate filter satisfies the
predicate. -/
theorem filter_next_pred :
    ∀ (fuel innerFuel : Nat) (s : BestTransactionFilter) (t : Transaction)
      (s1 : BestTransactionFilter),
      BestTransactionFilter.next fuel innerFuel s = (some t, s1) → s.predicate t = true := by
  intro fuel
  induction fuel with
  | zero =>
    intro g s t s1 h
    simp [BestTransactionFilter.next, Prod.ext_iff] at h
  | succ fuel ih =>
    intro g s t s1 h
    simp only [BestTransactionFilter.next] at h
    rcases hn : BestTransactions.next g s.best with ⟨r, b1⟩
    rw [hn] at h
    rcases r with _ | tx
    · simp [Prod.ext_iff] at h
    · dsimp only at h
      cases hsf : s.predicate tx with
      | true =>
        rw [hsf] at h
        simp only [if_true, Prod.mk.injEq, Option.some.injEq] at h
        rw [← h.1]
        exact hsf
      | false =>
        rw [hsf] at h
        simp only [Bool.false_eq_true, if_false] at h
        exact ih g { s with best := b1.mark_invalid tx } t s1 h

/-- A candidate failing the predicate is not yielded: the filter loop
continues on the state whose inner iterator has the candidate's sender
marked invalid. -/
theorem filter_skip_step (fuel innerFuel : Nat) (s : BestTransactionFilter)
    (tx : Transaction) (b1 : BestTransactions)
    (hn : BestTransactions.next innerFuel s.best = (some tx, b1))
    (hf : s.predicate tx = false) :
    BestTransactionFilter.next (fuel + 1) innerFuel s =
      BestTransactionFilter.next fuel innerFuel { s with best := b1.mark_invalid tx } := by
  simp only [BestTransactionFilter.next, hn, hf, Bool.false_eq_true, if_false]

/-! Lemmas about the prioritized-senders wrapper. -/

theorem prioScan_none {senders : List Nat} {maxGas gas : Nat} :
    ∀ {l buf buf1 : List Transaction},
      prioScan senders maxGas gas buf l = (none, buf1) → buf1 = buf ++ l := by
  intro l
  induction l with
  | nil => intro buf buf1 h; simpa [prioScan] using h.symm
  | cons t rest ih =>
    intro buf buf1 h
    simp only [prioScan] at h
    split at h
    · simp [Prod.ext_iff] at h
    · have := ih h
      simpa using this

theorem prioScan_some {senders : List Nat} {maxGas gas : Nat} :
    ∀ {l buf t rest buf1 : _},
      prioScan senders maxGas gas buf l = (some (t, rest), buf1) →
      buf1 ++ t :: rest = buf ++ l ∧ gas + t.gas_limit ≤ maxGas ∧
        senders.contains t.sender = true := by
  intro l
  induction l with
  | nil => intro buf t rest buf1 h; simp [prioScan, Prod.ext_iff] at h
  | cons x xs ih =>
    intro buf t rest buf1 h
    simp only [prioScan] at h
    split at h <;> rename_i hcond
    · simp only [Prod.mk.injEq, Option.some.injEq] at h
      obtain ⟨⟨hx, hr⟩, h2⟩ := h
      simp only [Bool.and_eq_true, decide_eq_true_eq] at hcond
      subst hx; subst hr; subst h2
      exact ⟨rfl, hcond.2, hcond.1⟩
    · have := ih h
      simpa using this

theorem prio_next_none {s : BestTransactionsWithPrioritizedSenders}
    (h : s.next = none) : s.buffer = [] ∧ s.inner = [] := by
  unfold BestTransactionsWithPrioritizedSenders.next at h
  split at h
  · rcases hscan : prioScan s.prioritized_senders s.max_prioritized_gas s.prioritized_gas
        s.buffer s.inner with ⟨o, buf1⟩
    rw [hscan] at h
    rcases o with _ | pr
    · dsimp only at h
      have hb1 : buf1 = s.buffer ++ s.inner := prioScan_none hscan
      unfold afterScan at h
      dsimp only at h
      cases hbuf : buf1 with
      | nil =>
        rw [hbuf] at h
        rcases List.append_eq_nil.mp (hbuf ▸ hb1).symm with ⟨hb, hi⟩
        exact ⟨hb, hi⟩
      | cons x xs => rw [hbuf] at h; simp at h
    · obtain ⟨t, rest⟩ := pr
      dsimp only at h
      simp at h
  · unfold afterScan at h
    cases hbuf : s.buffer with
    | nil =>
      rw [hbuf] at h
      dsimp only at h
      cases hin : s.inner with
      | nil => exact ⟨rfl, rfl⟩
      | cons x xs => rw [hin] at h; simp at h
    | cons x xs => rw [hbuf] at h; simp at h

theorem afterScan_some {s : BestTransactionsWithPrioritizedSenders}
    {t : Transaction} {s1 : BestTransactionsWithPrioritizedSenders}
    (h : afterScan s = some (t, s1)) :
    t :: (s1.buffer ++ s1.inner) = s.buffer ++ s.inner ∧
      s1.prioritized_gas = s.prioritized_gas ∧
      s1.max_prioritized_gas = s.max_prioritized_gas ∧
      s1.prioritized_senders = s.prioritized_senders := by
  unfold afterScan at h
  cases hbuf : s.buffer with
  | nil =>
    rw [hbuf] at h
    dsimp only at h
    cases hin : s.inner with
    | nil => rw [hin] at h; simp at h
    | cons x xs =>
      rw [hin] at h
      simp only [Option.some.injEq, Prod.mk.injEq] at h
      obtain ⟨h1, h2⟩ := h
      subst h1
      rw [← h2]
      exact ⟨rfl, rfl, rfl, rfl⟩
  | cons x xs =>
    rw [hbuf] at h
    simp only [Option.some.injEq, Prod.mk.injEq] at h
    obtain ⟨h1, h2⟩ := h
    subst h1
    rw [← h2]
    exact ⟨rfl, rfl, rfl, rfl⟩

theorem prio_next_some {s : BestTransactionsWithPrioritizedSenders}
    {t : Transaction} {s1 : BestTransactionsWithPrioritizedSenders}
    (h : s.next = some (t, s1)) :
    (t :: (s1.buffer ++ s1.inner)).Perm (s.buffer ++ s.inner) ∧
      s1.max_prioritized_gas = s.max_prioritized_gas ∧
      s1.prioritized_senders = s.prioritized_senders ∧
      (s1.prioritized_gas = s.prioritized_gas ∨
        (s1.prioritized_gas = s.prioritized_gas + t.gas_limit ∧
          s1.prioritized_gas ≤ s.max_prioritized_gas)) := by
  unfold BestTransactionsWithPrioritizedSenders.next at h
  split at h
  · rcases hscan : prioScan s.prioritized_senders s.max_prioritized_gas s.prioritized_gas
        s.buffer s.inner with ⟨o, buf1⟩
    rw [hscan] at h
    rcases o with _ | pr
    · dsimp only at h
      have hb1 : buf1 = s.buffer ++ s.inner := prioScan_none hscan
      have ha := afterScan_some h
      dsimp only at ha
      refine ⟨?_, ha.2.2.1, ha.2.2.2, Or.inl ha.2.1⟩
      rw [ha.1, hb1]
      simp
    · obtain ⟨x, rest⟩ := pr
      dsimp only at h
      simp only [Option.some.injEq, Prod.mk.injEq] at h
      obtain ⟨h1, h2⟩ := h
      subst h1
      have hs := prioScan_some hscan
      rw [← h2]
      refine ⟨?_, rfl, rfl, Or.inr ⟨rfl, hs.2.1⟩⟩
      dsimp only
      rw [← hs.1]
      exact (List.perm_middle).symm
  · have ha := afterScan_some h
    exact ⟨ha.1 ▸ List.Perm.refl _, ha.2.2.1, ha.2.2.2, Or.inl ha.2.1⟩

theorem prio_next_length {s : BestTransactionsWithPrioritizedSenders}
    {t : Transaction} {s1 : BestTransactionsWithPrioritizedSenders}
    (h : s.next = some (t, s1)) :
    s1.buffer.length + s1.inner.length < s.buffer.length + s.inner.length := by
  have hp := (prio_next_some h).1
  have := hp.length_eq
  simp only [List.length_cons, List.length_append] at this
  omega

theorem collect_prio_perm :
    ∀ (fuel : Nat) (s : BestTransactionsWithPrioritizedSenders),
      s.buffer.length + s.inner.length ≤ fuel →
      (collectPrioritized fuel s).Perm (s.buffer ++ s.inner) := by
  intro fuel
  induction fuel with
  | zero =>
    intro s hlen
    have hb : s.buffer = [] := List.eq_nil_of_length_eq_zero (by omega)
    have hi : s.inner = [] := List.eq_nil_of_length_eq_zero (by omega)
    simp [collectPrioritized, hb, hi]
  | succ fuel ih =>
    intro s hlen
    simp only [collectPrioritized]
    rcases hn : s.next with _ | pr
    · have := prio_next_none hn
      simp [this.1, this.2]
    · obtain ⟨t, s1⟩ := pr
      dsimp only
      have hstep := (prio_next_some hn).1
      have hlt := prio_next_length hn
      have hih := ih s1 (by omega)
      exact List.Perm.trans (List.Perm.cons t hih) hstep

theorem collect_prio_cap :
    ∀ (fuel : Nat) (s : BestTransactionsWithPrioritizedSenders),
      s.max_prioritized_gas ≤ s.prioritized_gas →
      s.buffer.length + s.inner.length ≤ fuel →
      collectPrioritized fuel s = s.buffer ++ s.inner := by
  intro fuel
  induction fuel with
  | zero =>
    intro s hcap hlen
    have hb : s.buffer = [] := List.eq_nil_of_length_eq_zero (by omega)
    have hi : s.inner = [] := List.eq_nil_of_length_eq_zero (by omega)
    simp [collectPrioritized, hb, hi]
  | succ fuel ih =>
    intro s hcap hlen
    simp only [collectPrioritized]
    have hnext : s.next = afterScan s := by
      unfold BestTransactionsWithPrioritizedSenders.next
      split <;> rename_i hcond
      · omega
      · rfl
    rw [hnext]
    unfold afterScan
    cases hbuf : s.buffer with
    | nil =>
      dsimp only
      cases hin : s.inner with
      | nil => simp
      | cons x xs =>
        dsimp only
        have hlen2 : s.buffer.length + xs.length ≤ fuel := by
          rw [hbuf] at hlen ⊢
          rw [hin] at hlen
          simp only [List.length_nil, List.length_cons] at hlen ⊢
          omega
        have h2 : collectPrioritized fuel { s with inner := xs } = s.buffer ++ xs :=
          ih _ hcap hlen2
        rw [hbuf] at h2
        rw [h2]
        simp
    | cons x xs =>
      dsimp only
      have hlen2 : xs.length + s.inner.length ≤ fuel := by
        rw [hbuf] at hlen
        simp only [List.length_cons] at hlen
        omega
      have h2 : collectPrioritized fuel { s with buffer := xs } = xs ++ s.inner :=
        ih _ hcap hlen2
      rw [h2]
      simp

theorem collect_prio_inner_empty :
    ∀ (fuel : Nat) (s : BestTransactionsWithPrioritizedSenders),
      s.inner = [] → s.buffer.length ≤ fuel →
      collectPrioritized fuel s = s.buffer := by
  intro fuel
  induction fuel with
  | zero =>
    intro s hin hlen
    have hb : s.buffer = [] := List.eq_nil_of_length_eq_zero (by omega)
    simp [collectPrioritized, hb]
  | succ fuel ih =>
    intro s hin hlen
    simp only [collectPrioritized]
    have hnext : s.next = afterScan { s with buffer := s.buffer } := by
      unfold BestTransactionsWithPrioritizedSenders.next
      split <;> rename_i hcond
      · rw [hin]
        simp only [prioScan]
      · rfl
    rw [hnext]
    unfold afterScan
    dsimp only
    cases hbuf : s.buffer with
    | nil =>
      dsimp only
      rw [hin]
    | cons x xs =>
      dsimp only
      have hlen2 : xs.length ≤ fuel := by
        rw [hbuf] at hlen
        simp only [List.length_cons] at hlen
        omega
      have h2 : collectPrioritized fuel { s with buffer := xs } = xs :=
        ih _ hin hlen2
      rw [h2]

/-! Lemmas about try_recv, the drain loop and pop_best. -/

theorem try_recv_chanLen_zero {s : BestTransactions} (h : s.chanLen = 0) :
    s.try_recv = (none, s) := by
  unfold BestTransactions.try_recv
  cases hrec : s.new_transaction_receiver with
  | none => rfl
  | some items =>
    unfold BestTransactions.chanLen at h
    rw [hrec] at h
    have hnil : items = [] := List.eq_nil_of_length_eq_zero h
    subst hnil
    simp only [tryRecvGo]
    have he : { s with new_transaction_receiver := some ([] : List ChanItem) } = s := by
      cases s
      simp_all
    rw [he]

theorem try_recv_some_chanLen {s : BestTransactions} {tx : PendingTransaction}
    {s1 : BestTransactions} (h : s.try_recv = (some tx, s1)) : s1.chanLen < s.chanLen := by
  unfold BestTransactions.try_recv at h
  cases hrec : s.new_transaction_receiver with
  | none => rw [hrec] at h; simp at h
  | some items =>
    rw [hrec] at h
    dsimp only at h
    rcases htr : tryRecvGo s.last_priority items with ⟨r, rest⟩
    rw [htr] at h
    dsimp only at h
    have hr : r = some tx := by
      have := congrArg Prod.fst h
      simpa using this
    have hs1 : s1 = { s with new_transaction_receiver := some rest } := by
      have := congrArg Prod.snd h
      simpa using this.symm
    subst hr
    subst hs1
    unfold BestTransactions.chanLen
    rw [hrec]
    simpa using tryRecvGo_some_length htr

theorem insertNew_chanLen (s : BestTransactions) (tx : PendingTransaction) :
    (s.insertNew tx).chanLen = s.chanLen := by
  unfold BestTransactions.chanLen
  rw [(insertNew_fields s tx).2.1]

theorem add_new_chanLen_zero {s : BestTransactions} (h : s.chanLen = 0) :
    s.add_new_transactions = s := by
  unfold BestTransactions.add_new_transactions
  rw [h]
  rfl

theorem addNewGo_of_le : ∀ (n : Nat) (s : BestTransactions), s.chanLen ≤ n →
    addNewGo n s = s.add_new_transactions := by
  intro n
  induction n using Nat.strong_induction_on with
  | _ n ih =>
    intro s hle
    cases n with
    | zero =>
      have h0 : s.chanLen = 0 := Nat.le_zero.mp hle
      rw [add_new_chanLen_zero h0]
      rfl
    | succ n =>
      simp only [addNewGo]
      rcases htr : s.try_recv with ⟨r, s1⟩
      rcases r with _ | tx
      · cases hch : s.chanLen with
        | zero =>
          have := try_recv_chanLen_zero hch
          rw [this] at htr
          have : s1 = s := by
            have := congrArg Prod.snd htr
            simpa using this.symm
          subst this
          rw [add_new_chanLen_zero hch]
        | succ k =>
          unfold BestTransactions.add_new_transactions
          rw [hch]
          simp only [addNewGo, htr]
      · have hlt : s1.chanLen < s.chanLen := try_recv_some_chanLen htr
        have hins : (s1.insertNew tx).chanLen = s1.chanLen := insertNew_chanLen s1 tx
        have hL : addNewGo n (s1.insertNew tx) = (s1.insertNew tx).add_new_transactions := by
          refine ih n (Nat.lt_succ_self n) _ ?_
          omega
        dsimp only
        rw [hL]
        cases hch : s.chanLen with
        | zero =>
          have := try_recv_chanLen_zero hch
          rw [this] at htr
          simp at htr
        | succ k =>
          unfold BestTransactions.add_new_transactions
          rw [hch]
          simp only [addNewGo, htr]
          refine (ih k ?_ _ ?_).symm
          · omega
          · omega

theorem add_new_step_some {s : BestTransactions} {tx : PendingTransaction}
    {s1 : BestTransactions} (h : s.try_recv = (some tx, s1)) :
    s.add_new_transactions = (s1.insertNew tx).add_new_transactions := by
  have hlt : s1.chanLen < s.chanLen := try_recv_some_chanLen h
  cases hch : s.chanLen with
  | zero => omega
  | succ k =>
    unfold BestTransactions.add_new_transactions
    rw [hch]
    simp only [addNewGo, h]
    refine addNewGo_of_le k _ ?_
    rw [insertNew_chanLen]
    omega

theorem add_new_step_none {s : BestTransactions} {s1 : BestTransactions}
    (h : s.try_recv = (none, s1)) : s.add_new_transactions = s1 := by
  cases hch : s.chanLen with
  | zero =>
    have := try_recv_chanLen_zero hch
    rw [this] at h
    have hs : s1 = s := by
      have := congrArg Prod.snd h
      simpa using this.symm
    subst hs
    exact add_new_chanLen_zero hch
  | succ k =>
    unfold BestTransactions.add_new_transactions
    rw [hch]
    simp only [addNewGo, h]

theorem add_new_all_lagged {s : BestTransactions} {items : List ChanItem}
    (hrec : s.new_transaction_receiver = some items)
    (hall : ∀ i ∈ items, i = ChanItem.lagged) :
    s.add_new_transactions = { s with new_transaction_receiver := some [] } := by
  have htr : s.try_recv = (none, { s with new_transaction_receiver := some [] }) := by
    unfold BestTransactions.try_recv
    rw [hrec]
    dsimp only
    rw [tryRecvGo_all_lagged hall]
  exact add_new_step_none htr

theorem try_recv_le_last {s : BestTransactions} {tx : PendingTransaction}
    {s1 : BestTransactions} {lp : Nat} (h : s.try_recv = (some tx, s1))
    (hlp : s.last_priority = some lp) : tx.priority ≤ lp := by
  unfold BestTransactions.try_recv at h
  cases hrec : s.new_transaction_receiver with
  | none => rw [hrec] at h; simp at h
  | some items =>
    rw [hrec] at h
    dsimp only at h
    rcases htr : tryRecvGo s.last_priority items with ⟨r, rest⟩
    rw [htr] at h
    dsimp only at h
    have hr : r = some tx := by
      have := congrArg Prod.fst h
      simpa using this
    subst hr
    rw [hlp] at htr
    exact tryRecvGo_some_le htr

theorem pop_best_some {s : BestTransactions} {best : PendingTransaction}
    {s1 : BestTransactions} (h : s.pop_best = (some best, s1)) :
    ∃ rest, popLast s.independent = some (best, rest) ∧
      s1 = { s with independent := rest, all := mapRemove best.transaction.id s.all } := by
  unfold BestTransactions.pop_best at h
  cases hl : popLast s.independent with
  | none => rw [hl] at h; simp at h
  | some pr =>
    obtain ⟨b, r⟩ := pr
    rw [hl] at h
    simp only [Prod.mk.injEq, Option.some.injEq] at h
    obtain ⟨h1, h2⟩ := h
    subst h1
    exact ⟨r, rfl, h2.symm⟩

theorem pop_best_max {s : BestTransactions} {best : PendingTransaction}
    {s1 : BestTransactions} (h : s.pop_best = (some best, s1)) :
    ∀ p ∈ s.independent, p.priority ≤ best.priority := by
  obtain ⟨rest, hl, _⟩ := pop_best_some h
  exact popLast_priority_max hl

/-! Concrete scenario states. -/

/-- Counterexample state for the global best-ordering claim: one sender with
two gapless transactions where the descendant has the higher priority. -/
def c1TxA : Transaction :=
  { hash := 100, sender_id := 1, sender := 1, nonce := 0, gas_limit := 21000,
    max_fee_per_gas := 100, max_fee_per_blob_gas := none, is_eip4844 := false }

/-- The nonce-1 transaction of the counterexample. -/
def c1TxB : Transaction := { c1TxA with hash := 101, nonce := 1 }

/-- Chain head with low priority. -/
def c1PTA : PendingTransaction := { submission_id := 0, transaction := c1TxA, priority := 5 }

/-- Descendant with high priority. -/
def c1PTB : PendingTransaction := { submission_id := 1, transaction := c1TxB, priority := 10 }

/-- Iterator snapshot: both transactions in all, only the chain head
independent, no live updates. -/
def c1State : BestTransactions :=
  { all := [({ sender := 1, nonce := 0 }, c1PTA), ({ sender := 1, nonce := 1 }, c1PTB)],
    independent := [c1PTA], invalid := [], new_transaction_receiver := none,
    last_priority := none, skip_blobs := false }

/-- Scenario S1 transaction with nonce i: dynamic fee 100, sender 0xAA...01
interned as 1, submission ids ascending with the nonce. -/
def s1Tx (i : Nat) : Transaction :=
  { hash := i, sender_id := 1, sender := 1, nonce := i, gas_limit := 21000,
    max_fee_per_gas := 100, max_fee_per_blob_gas := none, is_eip4844 := false }

/-- The pending entry of the S1 transaction with nonce i; with equal fees
the pluggable priority is the same value for every entry. -/
def s1PT (i : Nat) : PendingTransaction :=
  { submission_id := i, transaction := s1Tx i, priority := 1 }

/-- The all entries for the S1 nonces k..n-1. -/
def s1Entries (k n : Nat) : List (TransactionId × PendingTransaction) :=
  (List.range' k (n - k)).map fun i => ({ sender := 1, nonce := i }, s1PT i)

/-- The S1 iterator state after the first k transactions were yielded:
nonces k..n-1 remain in all and the chain head k alone is independent. -/
def s1Mid (k n : Nat) : BestTransactions :=
  { all := s1Entries k n,
    independent := if k < n then [s1PT k] else [],
    invalid := [], new_transaction_receiver := none, last_priority := none,
    skip_blobs := false }

/-- The initial S1 snapshot, as built from a pending pool holding the
gapless chain 0..n-1: all n transactions in all, the on-chain-nonce
transaction the single independent chain head (modelled from the spec
description of the snapshot; PendingPool::best is outside the slice). -/
def s1State (n : Nat) : BestTransactions := s1Mid 0 n

/-- The pending entry with nonce i of the mark-invalid counterexample. -/
def c4PT (i : Nat) : PendingTransaction :=
  { submission_id := i, transaction :=
      { hash := 40 + i, sender_id := 1, sender := 1, nonce := i, gas_limit := 21000,
        max_fee_per_gas := 100, max_fee_per_blob_gas := none, is_eip4844 := false },
    priority := 1 }

/-- Snapshot of a three-transaction gapless chain of one sender. -/
def c4State : BestTransactions :=
  { all := [({ sender := 1, nonce := 0 }, c4PT 0), ({ sender := 1, nonce := 1 }, c4PT 1),
            ({ sender := 1, nonce := 2 }, c4PT 2)],
    independent := [c4PT 0], invalid := [], new_transaction_receiver := none,
    last_priority := none, skip_blobs := false }

/-- Scenario S5 blob transaction at nonce 0. -/
def s5BlobTx : Transaction :=
  { hash := 50, sender_id := 1, sender := 1, nonce := 0, gas_limit := 21000,
    max_fee_per_gas := 100, max_fee_per_blob_gas := some 20, is_eip4844 := true }

/-- Scenario S5 dynamic-fee transaction at nonce 1. -/
def s5DynTx : Transaction :=
  { hash := 51, sender_id := 1, sender := 1, nonce := 1, gas_limit := 21000,
    max_fee_per_gas := 100, max_fee_per_blob_gas := none, is_eip4844 := false }

/-- Pending entry of the S5 blob transaction. -/
def s5PTBlob : PendingTransaction := { submission_id := 0, transaction := s5BlobTx, priority := 1 }

/-- Pending entry of the S5 dynamic-fee transaction. -/
def s5PTDyn : PendingTransaction := { submission_id := 1, transaction := s5DynTx, priority := 1 }

/-- The S5 snapshot with the blob transaction as chain head and the given
skip_blobs flag. -/
def s5State (b : Bool) : BestTransactions :=
  { all := [({ sender := 1, nonce := 0 }, s5PTBlob), ({ sender := 1, nonce := 1 }, s5PTDyn)],
    independent := [s5PTBlob], invalid := [], new_transaction_receiver := none,
    last_priority := none, skip_blobs := b }

/-- The iterator invariant named by the implicit claim: every element of the
independent set is stored in the all map under its own TransactionId. -/
def IndepInAll (s : BestTransactions) : Prop :=
  ∀ p ∈ s.independent, mapLookup p.transaction.id s.all = some p

instance decIndepInAll (s : BestTransactions) : Decidable (IndepInAll s) :=
  List.decidableBAll _ _

/-- Well-formedness of the all map: every stored entry lies under the
TransactionId of its own transaction. -/
def WfAll (s : BestTransactions) : Prop :=
  ∀ e ∈ s.all, e.1 = e.2.transaction.id

instance decWfAll (s : BestTransactions) : Decidable (WfAll s) :=
  List.decidableBAll _ _

/-- Snapshot entry of the invariant counterexample. -/
def c9P : PendingTransaction :=
  { submission_id := 0, transaction :=
      { hash := 90, sender_id := 1, sender := 1, nonce := 5, gas_limit := 21000,
        max_fee_per_gas := 100, max_fee_per_blob_gas := none, is_eip4844 := false },
    priority := 5 }

/-- A replacement for the same (sender, nonce) slot delivered over the
live-update channel: same id, different transaction. -/
def c9Q : PendingTransaction :=
  { submission_id := 1, transaction := { c9P.transaction with hash := 91, max_fee_per_gas := 200 },
    priority := 7 }

/-- State whose channel delivers the replacement of the snapshot chain
head. -/
def c9State : BestTransactions :=
  { all := [({ sender := 1, nonce := 5 }, c9P)], independent := [c9P], invalid := [],
    new_transaction_receiver := some [ChanItem.msg c9Q], last_priority := none,
    skip_blobs := false }

/-! The S1 run: a gapless single-sender chain is yielded in nonce order. -/

theorem pop_best_singleton (s : BestTransactions) (p : PendingTransaction)
    (h : s.independent = [p]) :
    s.pop_best =
      (some p, { s with independent := [], all := mapRemove p.transaction.id s.all }) := by
  unfold BestTransactions.pop_best
  rw [h]
  simp [popLast]

theorem next_yield_unlock (fuel : Nat) (s : BestTransactions) (p u : PendingTransaction)
    (hrec : s.new_transaction_receiver = none) (hinv : s.invalid = [])
    (hind : s.independent = [p])
    (hu : mapLookup p.unlocks (mapRemove p.transaction.id s.all) = some u)
    (hblob : (s.skip_blobs && p.transaction.is_eip4844) = false) :
    BestTransactions.next (fuel + 1) s =
      (some p.transaction,
        { s with independent := [u], all := mapRemove p.transaction.id s.all }) := by
  simp only [BestTransactions.next]
  rw [add_new_none hrec]
  rw [pop_best_singleton s p hind]
  dsimp only
  rw [hinv]
  simp only [List.contains, List.elem]
  rw [hu]
  dsimp only
  simp only [hblob, Bool.false_eq_true, if_false]
  rw [hrec]
  simp [setInsert]

theorem next_yield_nounlock (fuel : Nat) (s : BestTransactions) (p : PendingTransaction)
    (hrec : s.new_transaction_receiver = none) (hinv : s.invalid = [])
    (hind : s.independent = [p])
    (hu : mapLookup p.unlocks (mapRemove p.transaction.id s.all) = none)
    (hblob : (s.skip_blobs && p.transaction.is_eip4844) = false) :
    BestTransactions.next (fuel + 1) s =
      (some p.transaction,
        { s with independent := [], all := mapRemove p.transaction.id s.all }) := by
  simp only [BestTransactions.next]
  rw [add_new_none hrec]
  rw [pop_best_singleton s p hind]
  dsimp only
  rw [hinv]
  simp only [List.contains, List.elem]
  rw [hu]
  dsimp only
  simp only [hblob, Bool.false_eq_true, if_false]
  rw [hrec]
  simp

theorem s1Entries_cons {k n : Nat} (hk : k < n) :
    s1Entries k n = ({ sender := 1, nonce := k }, s1PT k) :: s1Entries (k + 1) n := by
  unfold s1Entries
  have h1 : n - k = (n - (k + 1)) + 1 := by omega
  rw [h1, List.range'_succ]
  simp

theorem s1Entries_remove {k n : Nat} :
    mapRemove { sender := 1, nonce := k } (s1Entries (k + 1) n) = s1Entries (k + 1) n := by
  unfold mapRemove
  apply List.filter_eq_self.mpr
  intro e he
  unfold s1Entries at he
  simp only [List.mem_map] at he
  obtain ⟨i, hi, rfl⟩ := he
  have hge : k + 1 ≤ i := (List.mem_range'_1.mp hi).1
  rw [Bool.not_eq_true']
  rw [beq_eq_false_iff_ne]
  intro hcontra
  have : i = k := congrArg TransactionId.nonce hcontra
  omega

theorem s1Entries_nil {k n : Nat} (hk : ¬ k < n) : s1Entries k n = [] := by
  unfold s1Entries
  have : n - k = 0 := by omega
  rw [this]
  rfl

theorem s1Entries_lookup_head {k n : Nat} (hk : k < n) :
    mapLookup { sender := 1, nonce := k } (s1Entries k n) = some (s1PT k) := by
  rw [s1Entries_cons hk]
  unfold mapLookup
  rw [List.find?_cons_of_pos _ (by simp)]

theorem s1_step {k n : Nat} (hk : k < n) (fuel : Nat) :
    BestTransactions.next (fuel + 1) (s1Mid k n) = (some (s1Tx k), s1Mid (k + 1) n) := by
  have hind : (s1Mid k n).independent = [s1PT k] := by simp [s1Mid, hk]
  have hrem : mapRemove (s1PT k).transaction.id (s1Mid k n).all = s1Entries (k + 1) n := by
    show mapRemove { sender := 1, nonce := k } (s1Entries k n) = _
    rw [s1Entries_cons hk]
    unfold mapRemove
    rw [List.filter_cons]
    simp only [beq_self_eq_true, Bool.not_true, Bool.false_eq_true, if_false]
    exact s1Entries_remove
  by_cases hk1 : k + 1 < n
  · have hu : mapLookup (s1PT k).unlocks (mapRemove (s1PT k).transaction.id (s1Mid k n).all) =
        some (s1PT (k + 1)) := by
      rw [hrem]
      exact s1Entries_lookup_head hk1
    rw [next_yield_unlock fuel _ _ _ rfl rfl hind hu rfl, hrem]
    dsimp only [s1Mid, s1PT]
    rw [if_pos hk1]
  · have hu : mapLookup (s1PT k).unlocks (mapRemove (s1PT k).transaction.id (s1Mid k n).all) =
        none := by
      rw [hrem, s1Entries_nil hk1]
      rfl
    rw [next_yield_nounlock fuel _ _ rfl rfl hind hu rfl, hrem]
    dsimp only [s1Mid, s1PT]
    rw [if_neg hk1]

theorem s1_none {k n : Nat} (hk : ¬ k < n) (fuel : Nat) :
    BestTransactions.next fuel (s1Mid k n) = (none, s1Mid k n) := by
  cases fuel with
  | zero => rfl
  | succ f =>
    simp only [BestTransactions.next]
    rw [add_new_none rfl]
    have hind : (s1Mid k n).independent = [] := by simp [s1Mid, hk]
    have hpop : (s1Mid k n).pop_best = (none, s1Mid k n) := by
      unfold BestTransactions.pop_best
      rw [hind]
      simp [popLast]
    rw [hpop]

theorem s1_collect : ∀ (c k n fuel : Nat), n - k ≤ c →
    collectBest c (fuel + 1) (s1Mid k n) = (List.range' k (n - k)).map s1Tx := by
  intro c
  induction c with
  | zero =>
    intro k n fuel h
    have h0 : n - k = 0 := by omega
    rw [h0]
    rfl
  | succ c ih =>
    intro k n fuel h
    by_cases hk : k < n
    · simp only [collectBest]
      rw [s1_step hk fuel]
      dsimp only
      rw [ih (k + 1) n fuel (by omega)]
      have h1 : n - k = (n - (k + 1)) + 1 := by omega
      rw [h1, List.range'_succ]
      simp
    · simp only [collectBest]
      rw [s1_none hk]
      have h0 : n - k = 0 := by omega
      rw [h0]
      rfl

/-! Association-list lookup lemmas. -/

theorem mapLookup_remove_self (k : TransactionId) (m : List (TransactionId × PendingTransaction)) :
    mapLookup k (mapRemove k m) = none := by
  induction m with
  | nil => rfl
  | cons e rest ih =>
    unfold mapRemove at ih ⊢
    unfold mapLookup at ih ⊢
    rw [List.filter_cons]
    cases he : (e.1 == k) with
    | true => simpa [he] using ih
    | false =>
      simp only [he, Bool.not_false, if_true]
      rw [List.find?_cons_of_neg _ (by simp [he])]
      exact ih

theorem mapLookup_remove_ne {k k2 : TransactionId} (h : k ≠ k2)
    (m : List (TransactionId × PendingTransaction)) :
    mapLookup k (mapRemove k2 m) = mapLookup k m := by
  induction m with
  | nil => rfl
  | cons e rest ih =>
    unfold mapRemove at ih ⊢
    unfold mapLookup at ih ⊢
    rw [List.filter_cons]
    cases he : (e.1 == k2) with
    | true =>
      have hek : e.1 = k2 := by simpa using he
      rw [List.find?_cons_of_neg _ (by simp [hek]; exact fun hc => h hc.symm)]
      simpa [he] using ih
    | false =>
      simp only [he, Bool.not_false, if_true]
      cases hek : (e.1 == k) with
      | true =>
        rw [List.find?_cons_of_pos _ (by simp [hek])]
        rw [List.find?_cons_of_pos _ (by simp [hek])]
      | false =>
        rw [List.find?_cons_of_neg _ (by simp [hek])]
        rw [List.find?_cons_of_neg _ (by simp [hek])]
        exact ih

theorem mapLookup_insert_self (k : TransactionId) (v : PendingTransaction)
    (m : List (TransactionId × PendingTransaction)) :
    mapLookup k (mapInsert k v m) = some v := by
  unfold mapInsert mapLookup
  rw [List.find?_cons_of_pos _ (by simp)]

theorem mapLookup_insert_ne {k k2 : TransactionId} (h : k ≠ k2) (v : PendingTransaction)
    (m : List (TransactionId × PendingTransaction)) :
    mapLookup k (mapInsert k2 v m) = mapLookup k m := by
  unfold mapInsert
  unfold mapLookup
  rw [List.find?_cons_of_neg _ (by simp; exact fun hc => h hc.symm)]
  exact mapLookup_remove_ne h m

theorem mapLookup_mem {k : TransactionId} {m : List (TransactionId × PendingTransaction)}
    {p : PendingTransaction} (h : mapLookup k m = some p) : (k, p) ∈ m := by
  unfold mapLookup at h
  cases hf : m.find? (fun e => e.1 == k) with
  | none => rw [hf] at h; simp at h
  | some e =>
    rw [hf] at h
    simp only [Option.some.injEq] at h
    have hmem := List.mem_of_find?_eq_some hf
    have hpred := List.find?_some hf
    simp only [beq_iff_eq] at hpred
    rw [← h, ← hpred]
    simpa using hmem

theorem WfAll_lookup {s : BestTransactions} (hwf : WfAll s) {k : TransactionId}
    {p : PendingTransaction} (h : mapLookup k s.all = some p) : p.transaction.id = k := by
  have hmem := mapLookup_mem h
  exact (hwf (k, p) hmem).symm

theorem mapRemove_subset {k : TransactionId} {m : List (TransactionId × PendingTransaction)}
    {e : TransactionId × PendingTransaction} (h : e ∈ mapRemove k m) : e ∈ m :=
  List.mem_of_mem_filter h

theorem pop_best_none {s s1 : BestTransactions} (h : s.pop_best = (none, s1)) :
    s1 = s ∧ s.independent = [] := by
  unfold BestTransactions.pop_best at h
  cases hl : popLast s.independent with
  | none =>
    rw [hl] at h
    refine ⟨?_, popLast_eq_none.mp hl⟩
    have := congrArg Prod.snd h
    simpa using this.symm
  | some pr =>
    obtain ⟨b, r⟩ := pr
    rw [hl] at h
    simp at h

theorem setInsert_mem {p q : PendingTransaction} {l : List PendingTransaction}
    (h : p ∈ setInsert q l) : p = q ∨ p ∈ l := by
  unfold setInsert at h
  split at h
  · exact Or.inr h
  · rcases List.mem_cons.mp h with h | h
    · exact Or.inl h
    · exact Or.inr h

theorem WfAll_mark {s : BestTransactions} (t : Transaction) (hwf : WfAll s) :
    WfAll (s.mark_invalid t) := by
  intro e he
  rw [(mark_invalid_fields s t).1] at he
  exact hwf e he

/-- With no live-update receiver, once a sender is invalid and owns no
independent entry, next leaves all of its entries in the all map untouched
and never inserts one into independent; the hypotheses persist. -/
theorem next_invalid_sender_frozen {sid : Nat} :
    ∀ (fuel : Nat) (s : BestTransactions),
      s.new_transaction_receiver = none → WfAll s → sid ∈ s.invalid →
      (∀ p ∈ s.independent, p.transaction.sender_id ≠ sid) →
      (∀ k : TransactionId, k.sender = sid →
          mapLookup k (BestTransactions.next fuel s).2.all = mapLookup k s.all) ∧
        (∀ p ∈ (BestTransactions.next fuel s).2.independent, p.transaction.sender_id ≠ sid) ∧
        (BestTransactions.next fuel s).2.new_transaction_receiver = none ∧
        WfAll (BestTransactions.next fuel s).2 ∧
        sid ∈ (BestTransactions.next fuel s).2.invalid := by
  intro fuel
  induction fuel with
  | zero =>
    intro s hrec hwf hmem hind
    exact ⟨fun k hk => rfl, hind, hrec, hwf, hmem⟩
  | succ fuel ih =>
    intro s hrec hwf hmem hind
    simp only [BestTransactions.next]
    rw [add_new_none hrec]
    rcases hp : s.pop_best with ⟨r, s1⟩
    rcases r with _ | best
    · obtain ⟨hs1, _⟩ := pop_best_none hp
      subst hs1
      exact ⟨fun k hk => rfl, hind, hrec, hwf, hmem⟩
    · obtain ⟨rest, hl, hs1⟩ := pop_best_some hp
      have hbestmem : best ∈ s.independent := (popLast_perm hl).mem_iff.mpr (by simp)
      have hbs : best.transaction.sender_id ≠ sid := hind best hbestmem
      have hrest : ∀ p ∈ rest, p.transaction.sender_id ≠ sid := fun p hp2 =>
        hind p ((popLast_perm hl).mem_iff.mpr (by simp [hp2]))
      have h1rec : s1.new_transaction_receiver = none := by rw [hs1]; exact hrec
      have h1wf : WfAll s1 := by
        intro e he
        rw [hs1] at he
        exact hwf e (mapRemove_subset he)
      have h1mem : sid ∈ s1.invalid := by rw [hs1]; exact hmem
      have h1ind : ∀ p ∈ s1.independent, p.transaction.sender_id ≠ sid := by
        rw [hs1]; exact hrest
      have hAgree1 : ∀ k : TransactionId, k.sender = sid →
          mapLookup k s1.all = mapLookup k s.all := by
        intro k hk
        rw [hs1]
        have hkne : k ≠ best.transaction.id := by
          intro hcontra
          have : k.sender = best.transaction.sender_id := by rw [hcontra]; rfl
          rw [hk] at this
          exact hbs this.symm
        exact mapLookup_remove_ne hkne s.all
      dsimp only
      cases hc : s1.invalid.contains best.transaction.sender_id with
      | true =>
        simp only [hc, if_true]
        have hres := ih s1 h1rec h1wf h1mem h1ind
        refine ⟨fun k hk => ?_, hres.2.1, hres.2.2.1, hres.2.2.2.1, hres.2.2.2.2⟩
        rw [hres.1 k hk, hAgree1 k hk]
      | false =>
        simp only [hc, Bool.false_eq_true, if_false]
        rcases hu : mapLookup best.unlocks s1.all with _ | u <;> dsimp only
        · cases hb : s1.skip_blobs && best.transaction.is_eip4844 with
          | true =>
            simp only [hb, if_true]
            have hres := ih (s1.mark_invalid best.transaction)
              (by rw [(mark_invalid_fields s1 _).2.2.1]; exact h1rec)
              (WfAll_mark _ h1wf) (mark_invalid_mem _ h1mem)
              (by rw [(mark_invalid_fields s1 _).2.1]; exact h1ind)
            refine ⟨fun k hk => ?_, hres.2.1, hres.2.2.1, hres.2.2.2.1, hres.2.2.2.2⟩
            rw [hres.1 k hk, (mark_invalid_fields s1 _).1, hAgree1 k hk]
          | false =>
            simp only [hb, Bool.false_eq_true, if_false]
            rw [h1rec]
            simp only [Option.isSome_none, Bool.false_eq_true, if_false]
            exact ⟨hAgree1, h1ind, h1rec, h1wf, h1mem⟩
        · have hus : u.transaction.sender_id ≠ sid := by
            have hid := WfAll_lookup h1wf hu
            have : u.transaction.sender_id = best.transaction.sender_id := by
              have := congrArg TransactionId.sender hid
              simpa [Transaction.id, PendingTransaction.unlocks] using this
            rw [this]
            exact hbs
          have h2ind : ∀ p ∈ setInsert u s1.independent,
              p.transaction.sender_id ≠ sid := by
            intro p hp2
            rcases setInsert_mem hp2 with hp2 | hp2
            · rw [hp2]; exact hus
            · exact h1ind p hp2
          cases hb : s1.skip_blobs && best.transaction.is_eip4844 with
          | true =>
            simp only [hb, if_true]
            have hres := ih ({ s1 with independent := setInsert u s1.independent
              }.mark_invalid best.transaction)
              (by rw [(mark_invalid_fields _ _).2.2.1]; exact h1rec)
              (WfAll_mark best.transaction (fun e he => h1wf e he))
              (mark_invalid_mem _ h1mem)
              (by rw [(mark_invalid_fields _ _).2.1]; exact h2ind)
            refine ⟨fun k hk => ?_, hres.2.1, hres.2.2.1, hres.2.2.2.1, hres.2.2.2.2⟩
            rw [hres.1 k hk, (mark_invalid_fields _ _).1]
            exact hAgree1 k hk
          | false =>
            simp only [hb, Bool.false_eq_true, if_false]
            rw [h1rec]
            simp only [Option.isSome_none, Bool.false_eq_true, if_false]
            exact ⟨hAgree1, h2ind, trivial, h1wf, h1mem⟩

theorem ordEq_self (p : PendingTransaction) : PendingTransaction.ordEq p p = true := by
  simp [PendingTransaction.ordEq]

theorem setInsert_nodup {p : PendingTransaction} {l : List PendingTransaction}
    (h : l.Nodup) : (setInsert p l).Nodup := by
  unfold setInsert
  split <;> rename_i hany
  · exact h
  · refine List.Nodup.cons ?_ h
    intro hmem
    have hc : l.any (fun q => PendingTransaction.ordEq q p) = true :=
      List.any_eq_true.mpr ⟨p, hmem, ordEq_self p⟩
    exact hany hc

theorem pop_best_IndepInAll {s : BestTransactions} {best : PendingTransaction}
    {s1 : BestTransactions} (hInv : IndepInAll s) (hnd : s.independent.Nodup)
    (h : s.pop_best = (some best, s1)) :
    IndepInAll s1 ∧ s1.independent.Nodup ∧
      mapLookup best.transaction.id s1.all = none ∧ best ∉ s1.independent := by
  obtain ⟨rest, hl, hs1⟩ := pop_best_some h
  have hperm := popLast_perm hl
  have hnd2 : (best :: rest).Nodup := hperm.nodup_iff.mp hnd
  have hbn : best ∉ rest := (List.nodup_cons.mp hnd2).1
  have hndr : rest.Nodup := (List.nodup_cons.mp hnd2).2
  refine ⟨?_, by rw [hs1]; exact hndr, by rw [hs1]; exact mapLookup_remove_self _ _,
    by rw [hs1]; exact hbn⟩
  intro p hp2
  rw [hs1] at hp2 ⊢
  dsimp only at hp2 ⊢
  have hpmem : p ∈ s.independent := hperm.mem_iff.mpr (List.mem_cons_of_mem _ hp2)
  have hlp := hInv p hpmem
  have hpb : p ≠ best := fun he => hbn (he ▸ hp2)
  have hkne : p.transaction.id ≠ best.transaction.id := by
    intro he
    have h1 := hInv best (hperm.mem_iff.mpr (List.mem_cons_self _ _))
    rw [he] at hlp
    rw [hlp] at h1
    have : p = best := by injection h1
    exact hpb this
  rw [mapLookup_remove_ne hkne]
  exact hlp

theorem insertNew_IndepInAll {s : BestTransactions} {tx : PendingTransaction}
    (hInv : IndepInAll s) (hnd : s.independent.Nodup)
    (hcol : ∀ p ∈ s.independent, p.transaction.id = tx.transaction.id → p = tx) :
    IndepInAll (s.insertNew tx) ∧ (s.insertNew tx).independent.Nodup := by
  unfold BestTransactions.insertNew
  dsimp only
  split <;> rename_i hanc
  · constructor
    · intro p hp2
      dsimp only at hp2 ⊢
      rcases setInsert_mem hp2 with hp3 | hp3
      · subst hp3
        exact mapLookup_insert_self _ _ _
      · by_cases hk : p.transaction.id = tx.transaction.id
        · have := hcol p hp3 hk
          subst this
          rw [hk]
          exact mapLookup_insert_self _ _ _
        · rw [mapLookup_insert_ne hk]
          exact hInv p hp3
    · exact setInsert_nodup hnd
  · constructor
    · intro p hp2
      dsimp only at hp2 ⊢
      by_cases hk : p.transaction.id = tx.transaction.id
      · have := hcol p hp2 hk
        subst this
        rw [hk]
        exact mapLookup_insert_self _ _ _
      · rw [mapLookup_insert_ne hk]
        exact hInv p hp2
    · exact hnd

theorem mark_IndepInAll {s : BestTransactions} (t : Transaction) (hInv : IndepInAll s) :
    IndepInAll (s.mark_invalid t) := by
  intro p hp2
  rw [(mark_invalid_fields s t).2.1] at hp2
  rw [(mark_invalid_fields s t).1]
  exact hInv p hp2

/-- With no live-update receiver, next preserves the independent-in-all
invariant, duplicate-freeness of independent and well-formedness of the
all map. -/
theorem next_IndepInAll :
    ∀ (fuel : Nat) (s : BestTransactions),
      s.new_transaction_receiver = none → WfAll s → IndepInAll s →
      s.independent.Nodup →
      IndepInAll (BestTransactions.next fuel s).2 ∧
        (BestTransactions.next fuel s).2.independent.Nodup ∧
        WfAll (BestTransactions.next fuel s).2 ∧
        (BestTransactions.next fuel s).2.new_transaction_receiver = none := by
  intro fuel
  induction fuel with
  | zero =>
    intro s hrec hwf hInv hnd
    exact ⟨hInv, hnd, hwf, hrec⟩
  | succ fuel ih =>
    intro s hrec hwf hInv hnd
    simp only [BestTransactions.next]
    rw [add_new_none hrec]
    rcases hp : s.pop_best with ⟨r, s1⟩
    rcases r with _ | best
    · obtain ⟨hs1, _⟩ := pop_best_none hp
      subst hs1
      exact ⟨hInv, hnd, hwf, hrec⟩
    · obtain ⟨hInv1, hnd1, hgone, hbn⟩ := pop_best_IndepInAll hInv hnd hp
      obtain ⟨rest, hl, hs1⟩ := pop_best_some hp
      have h1rec : s1.new_transaction_receiver = none := by rw [hs1]; exact hrec
      have h1wf : WfAll s1 := by
        intro e he
        rw [hs1] at he
        exact hwf e (mapRemove_subset he)
      dsimp only
      cases hc : s1.invalid.contains best.transaction.sender_id with
      | true =>
        simp only [hc, if_true]
        exact ih s1 h1rec h1wf hInv1 hnd1
      | false =>
        simp only [hc, Bool.false_eq_true, if_false]
        rcases hu : mapLookup best.unlocks s1.all with _ | u <;> dsimp only
        · cases hb : s1.skip_blobs && best.transaction.is_eip4844 with
          | true =>
            simp only [hb, if_true]
            refine ih _ (by rw [(mark_invalid_fields _ _).2.2.1]; exact h1rec)
              (WfAll_mark _ h1wf) (mark_IndepInAll _ hInv1)
              (by rw [(mark_invalid_fields _ _).2.1]; exact hnd1)
          | false =>
            simp only [hb, Bool.false_eq_true, if_false]
            rw [h1rec]
            simp only [Option.isSome_none, Bool.false_eq_true, if_false]
            exact ⟨hInv1, hnd1, h1wf, h1rec⟩
        · have hInv2 : IndepInAll { s1 with independent := setInsert u s1.independent } := by
            intro p hp2
            dsimp only at hp2 ⊢
            rcases setInsert_mem hp2 with hp3 | hp3
            · subst hp3
              rw [WfAll_lookup h1wf hu]
              exact hu
            · exact hInv1 p hp3
          have hnd2 : ({ s1 with independent := setInsert u s1.independent
              }).independent.Nodup := setInsert_nodup hnd1
          have h2wf : WfAll { s1 with independent := setInsert u s1.independent } :=
            fun e he => h1wf e he
          cases hb : s1.skip_blobs && best.transaction.is_eip4844 with
          | true =>
            simp only [hb, if_true]
            refine ih _ (by rw [(mark_invalid_fields _ _).2.2.1]; exact h1rec)
              (WfAll_mark _ h2wf) (mark_IndepInAll _ hInv2)
              (by rw [(mark_invalid_fields _ _).2.1]; exact hnd2)
          | false =>
            simp only [hb, Bool.false_eq_true, if_false]
            rw [h1rec]
            simp only [Option.isSome_none, Bool.false_eq_true, if_false]
            exact ⟨hInv2, hnd2, h2wf, trivial⟩

/-! Claim theorems. -/

/-- C1 counterexample: with no live updates at all (receiver absent), the
snapshot holding a low-priority chain head whose descendant has higher
priority yields priority 5 first and priority 10 second, so the yielded
priority sequence increases even though no live-update skip is involved:
the claim that the sequence is non-increasing is false. -/
theorem C1_counterexample :
    collectBest 2 3 c1State = [c1PTA.transaction, c1PTB.transaction] ∧
      c1PTA.priority < c1PTB.priority ∧
      c1State.new_transaction_receiver = none := by
  decide

/-- C1 (amended): a live-update arrival whose priority exceeds the
last-yielded priority is never surfaced by try_recv, and every popped best
transaction carries the maximal priority of the independent set at the
moment it is popped; the yielded sequence as a whole need not be
non-increasing, since a yield can unlock a higher-priority descendant that
is yielded later. -/
theorem C1_best_ordering_amended :
    (∀ (s : BestTransactions) (tx : PendingTransaction) (s1 : BestTransactions) (lp : Nat),
        s.try_recv = (some tx, s1) → s.last_priority = some lp → tx.priority ≤ lp) ∧
      ∀ (s : BestTransactions) (best : PendingTransaction) (s1 : BestTransactions),
        s.pop_best = (some best, s1) → ∀ p ∈ s.independent, p.priority ≤ best.priority :=
  ⟨fun _ _ _ _ h hl => try_recv_le_last h hl, fun _ _ _ h => pop_best_max h⟩

/-- Channel state used to witness the live-update half of the amended best
ordering claim. -/
def c1wState : BestTransactions :=
  { all := [], independent := [], invalid := [],
    new_transaction_receiver := some [ChanItem.msg c1PTA], last_priority := some 7,
    skip_blobs := false }

theorem C1_best_ordering_amended_witness :
    c1PTA.priority ≤ 7 ∧ c1PTA.priority ≤ c1PTA.priority :=
  ⟨C1_best_ordering_amended.1 c1wState c1PTA
      { c1wState with new_transaction_receiver := some [] } 7 (by decide) rfl,
    C1_best_ordering_amended.2 c1State c1PTA
      { c1State with
        independent := []
        all := mapRemove c1PTA.transaction.id c1State.all } (by decide) c1PTA (by decide)⟩

theorem satisfiesFees_spec {t : Transaction} {base blob : Nat}
    (h : satisfiesFees t base blob = true) :
    base ≤ t.max_fee_per_gas ∧ ∀ b, t.max_fee_per_blob_gas = some b → blob ≤ b := by
  unfold satisfiesFees at h
  simp only [Bool.and_eq_true, decide_eq_true_eq] at h
  refine ⟨h.1, fun b hb => ?_⟩
  have h2 := h.2
  rw [hb] at h2
  simpa using h2

/-- C2: every transaction yielded by the with-fees wrapper satisfies
max_fee_per_gas at least the base fee and, when it carries a blob fee, at
least the blob fee; a candidate failing either check is not yielded and the
loop continues with its sender marked invalid in the inner iterator, whose
next never yields a transaction of an invalid sender (so the descendants
are skipped too). -/
theorem C2_with_fees_guarantee :
    (∀ (fuel innerFuel : Nat) (s : BestTransactionsWithFees) (t : Transaction)
        (s1 : BestTransactionsWithFees),
        BestTransactionsWithFees.next fuel innerFuel s = (some t, s1) →
        s.base_fee ≤ t.max_fee_per_gas ∧
          ∀ b, t.max_fee_per_blob_gas = some b → s.base_fee_per_blob_gas ≤ b) ∧
      (∀ (fuel innerFuel : Nat) (s : BestTransactionsWithFees) (tx : Transaction)
          (b1 : BestTransactions),
          BestTransactions.next innerFuel s.best = (some tx, b1) →
          satisfiesFees tx s.base_fee s.base_fee_per_blob_gas = false →
          BestTransactionsWithFees.next (fuel + 1) innerFuel s =
              BestTransactionsWithFees.next fuel innerFuel
                { s with best := b1.mark_invalid tx } ∧
            tx.sender_id ∈ (b1.mark_invalid tx).invalid) ∧
      ∀ (fuel : Nat) (s : BestTransactions) (sid : Nat) (t : Transaction)
        (s1 : BestTransactions),
        sid ∈ s.invalid → BestTransactions.next fuel s = (some t, s1) → t.sender_id ≠ sid := by
  refine ⟨?_, ?_, ?_⟩
  · intro fuel g s t s1 h
    exact satisfiesFees_spec (with_fees_next_fees fuel g s t s1 h)
  · intro fuel g s tx b1 hn hf
    exact ⟨with_fees_skip_step fuel g s tx b1 hn hf, mark_invalid_self_mem b1 tx⟩
  · intro fuel s sid t s1 hmem hn
    exact (next_invalid_mem fuel s hmem).2 t (by rw [hn])

/-- With-fees wrapper around the two-transaction snapshot, fees satisfied. -/
def c2State : BestTransactionsWithFees :=
  { best := c1State, base_fee := 10, base_fee_per_blob_gas := 15 }

/-- The wrapper state after yielding the chain head of c1State. -/
def c2After : BestTransactionsWithFees :=
  { best := (BestTransactions.next 1 c1State).2, base_fee := 10, base_fee_per_blob_gas := 15 }

/-- An underpriced transaction: max fee below the configured base fee. -/
def c2LowTx : Transaction := { c1TxA with hash := 102, max_fee_per_gas := 5 }

/-- Pending entry of the underpriced transaction. -/
def c2LowPT : PendingTransaction := { submission_id := 0, transaction := c2LowTx, priority := 1 }

/-- Snapshot holding only the underpriced transaction. -/
def c2FailBest : BestTransactions :=
  { all := [({ sender := 1, nonce := 0 }, c2LowPT)], independent := [c2LowPT], invalid := [],
    new_transaction_receiver := none, last_priority := none, skip_blobs := false }

/-- The inner state after the underpriced transaction was popped. -/
def c2FailAfter : BestTransactions :=
  { all := [], independent := [], invalid := [], new_transaction_receiver := none,
    last_priority := none, skip_blobs := false }

/-- With-fees wrapper whose single candidate is underpriced. -/
def c2Fail : BestTransactionsWithFees :=
  { best := c2FailBest, base_fee := 10, base_fee_per_blob_gas := 15 }

/-- Snapshot with an unrelated sender marked invalid. -/
def c2InvState : BestTransactions := { c1State with invalid := [9] }

theorem C2_with_fees_guarantee_witness :
    (10 ≤ c1TxA.max_fee_per_gas ∧ ∀ b, c1TxA.max_fee_per_blob_gas = some b → 15 ≤ b) ∧
      (BestTransactionsWithFees.next 2 1 c2Fail =
          BestTransactionsWithFees.next 1 1
            { c2Fail with best := c2FailAfter.mark_invalid c2LowTx } ∧
        c2LowTx.sender_id ∈ (c2FailAfter.mark_invalid c2LowTx).invalid) ∧
      c1TxA.sender_id ≠ 9 :=
  ⟨C2_with_fees_guarantee.1 1 1 c2State c1TxA c2After (by decide),
    C2_with_fees_guarantee.2.1 1 1 c2Fail c2LowTx c2FailAfter (by decide) (by decide),
    C2_with_fees_guarantee.2.2 1 c2InvState 9 c1TxA (BestTransactions.next 1 c2InvState).2
      (by decide) (by decide)⟩

/-- C3: for every n, the S1 snapshot of a gapless chain of n transactions
with consecutive nonces 0..n-1 from one sender, iterated with no live
updates and no mark_invalid calls, yields exactly those n transactions in
strictly ascending nonce order (collecting with any extra steps adds
nothing). -/
theorem C3_s1_gapless_ordered :
    ∀ (n extra fuel : Nat),
      collectBest (n + extra) (fuel + 1) (s1State n) = (List.range n).map s1Tx ∧
        (collectBest (n + extra) (fuel + 1) (s1State n)).map Transaction.nonce =
          List.range n := by
  intro n extra fuel
  have h1 : collectBest (n + extra) (fuel + 1) (s1State n) =
      (List.range' 0 (n - 0)).map s1Tx :=
    s1_collect (n + extra) 0 n fuel (by omega)
  have h2 : (List.range' 0 (n - 0)).map s1Tx = (List.range n).map s1Tx := by
    rw [Nat.sub_zero, List.range_eq_range']
  refine ⟨h1.trans h2, ?_⟩
  rw [h1.trans h2, List.map_map]
  have h3 : (Transaction.nonce ∘ s1Tx) = fun i => i := funext fun i => rfl
  rw [h3]
  exact List.map_id' (List.range n)

/-- C4 counterexample: yield the chain head, mark it invalid, then call
next once more.  The descendant at nonce 1 (which had already been
unlocked into independent when the head was yielded) is present in all
right after mark_invalid but the subsequent next pops it, skips it and
removes it from the all map — so descendants do not all remain in all. -/
theorem C4_counterexample :
    (BestTransactions.next 4 c4State).1 = some (c4PT 0).transaction ∧
      mapLookup { sender := 1, nonce := 1 }
          ((BestTransactions.next 4 c4State).2.mark_invalid (c4PT 0).transaction).all =
        some (c4PT 1) ∧
      (BestTransactions.next 4 ((BestTransactions.next 4 c4State).2.mark_invalid
          (c4PT 0).transaction)).1 = none ∧
      mapLookup { sender := 1, nonce := 1 }
          ((BestTransactions.next 4 ((BestTransactions.next 4 c4State).2.mark_invalid
            (c4PT 0).transaction)).2).all = none := by
  decide

/-- C4 (amended): after mark_invalid(t, kind) no transaction of t's sender
is ever yielded again and the sender stays recorded invalid; mark_invalid
records the sender; and, with no live-update receiver, the descendants of
an invalid sender that are not in independent stay untouched in the all
map and are never inserted into independent — while a descendant that had
already been unlocked into independent before the call is popped, skipped
and removed from both structures (as the counterexample computes). -/
theorem C4_mark_invalid_amended :
    (∀ (fuel : Nat) (s : BestTransactions) (sid : Nat) (t : Transaction)
        (s1 : BestTransactions),
        sid ∈ s.invalid → BestTransactions.next fuel s = (some t, s1) →
        t.sender_id ≠ sid ∧ sid ∈ s1.invalid) ∧
      (∀ (s : BestTransactions) (tx : Transaction),
        tx.sender_id ∈ (s.mark_invalid tx).invalid) ∧
      ∀ (fuel : Nat) (s : BestTransactions) (sid : Nat),
        s.new_transaction_receiver = none → WfAll s → sid ∈ s.invalid →
        (∀ p ∈ s.independent, p.transaction.sender_id ≠ sid) →
        (∀ k : TransactionId, k.sender = sid →
            mapLookup k (BestTransactions.next fuel s).2.all = mapLookup k s.all) ∧
          ∀ p ∈ (BestTransactions.next fuel s).2.independent,
            p.transaction.sender_id ≠ sid := by
  refine ⟨?_, fun s tx => mark_invalid_self_mem s tx, ?_⟩
  · intro fuel s sid t s1 hmem hn
    have h := next_invalid_mem fuel s hmem
    refine ⟨h.2 t (by rw [hn]), ?_⟩
    have h2 := h.1
    rw [hn] at h2
    exact h2
  · intro fuel s sid hrec hwf hmem hind
    have h := next_invalid_sender_frozen fuel s hrec hwf hmem hind
    exact ⟨h.1, h.2.1⟩

/-- The c4 snapshot with an unrelated sender 9 marked invalid. -/
def c4wInv : BestTransactions := { c4State with invalid := [9] }

theorem C4_mark_invalid_amended_witness :
    ((c4PT 0).transaction.sender_id ≠ 9 ∧
        9 ∈ (BestTransactions.next 4 c4wInv).2.invalid) ∧
      9 ∈ (c4State.mark_invalid { c1TxA with sender_id := 9 }).invalid ∧
      mapLookup { sender := 9, nonce := 0 } (BestTransactions.next 4 c4wInv).2.all =
        mapLookup { sender := 9, nonce := 0 } c4wInv.all :=
  ⟨C4_mark_invalid_amended.1 4 c4wInv 9 (c4PT 0).transaction
      (BestTransactions.next 4 c4wInv).2 (by decide) (by decide),
    C4_mark_invalid_amended.2.1 c4State { c1TxA with sender_id := 9 },
    (C4_mark_invalid_amended.2.2 4 c4wInv 9 rfl (by decide) (by decide) (by decide)).1
      { sender := 9, nonce := 0 } rfl⟩

/-- C5: with skip_blobs set, next never returns an EIP-4844 transaction
(popped blobs are marked invalid and skipped); in scenario S5 the iterator
with skip_blobs yields nothing and records the sender invalid (which also
suppresses the nonce-1 transaction), while with skip_blobs unset it yields
the blob then the dynamic-fee transaction. -/
theorem C5_skip_blobs :
    (∀ (fuel : Nat) (s : BestTransactions) (t : Transaction) (s1 : BestTransactions),
        s.skip_blobs = true → BestTransactions.next fuel s = (some t, s1) →
        t.is_eip4844 = false) ∧
      collectBest 2 4 (s5State true) = [] ∧
      ((BestTransactions.next 4 (s5State true)).2).invalid = [1] ∧
      collectBest 2 4 (s5State false) = [s5BlobTx, s5DynTx] := by
  refine ⟨?_, by decide, by decide, by decide⟩
  intro fuel s t s1 hs hn
  exact (next_skip_blobs fuel s hs).2 t (by rw [hn])

/-- A skip-blobs state holding only a non-blob transaction, used to witness
the general conjunct of the blob-skip claim. -/
def c5wState : BestTransactions :=
  { all := [({ sender := 1, nonce := 1 }, s5PTDyn)], independent := [s5PTDyn], invalid := [],
    new_transaction_receiver := none, last_priority := none, skip_blobs := true }

theorem C5_skip_blobs_witness :
    s5DynTx.is_eip4844 = false ∧ collectBest 2 4 (s5State true) = [] :=
  ⟨C5_skip_blobs.1 1 c5wState s5DynTx (BestTransactions.next 1 c5wState).2 rfl (by decide),
    C5_skip_blobs.2.1⟩

/-- C6: on each drain step, a received transaction with priority at most
the last-yielded priority (or received before anything was yielded) is
surfaced and the loop inserts it and continues; a received transaction
with higher priority is consumed but nothing is inserted and the drain
stops for this call; every inserted transaction lands in all under its id
and in independent exactly when its (sender, nonce-1) ancestor is not in
all. -/
theorem C6_live_update_drain :
    (∀ (s : BestTransactions) (tx : PendingTransaction) (rest : List ChanItem),
        s.new_transaction_receiver = some (ChanItem.msg tx :: rest) →
        (∀ lp, s.last_priority = some lp → tx.priority ≤ lp) →
        s.try_recv = (some tx, { s with new_transaction_receiver := some rest }) ∧
          s.add_new_transactions =
            (BestTransactions.insertNew { s with new_transaction_receiver := some rest }
              tx).add_new_transactions) ∧
      (∀ (s : BestTransactions) (tx : PendingTransaction) (rest : List ChanItem) (lp : Nat),
        s.new_transaction_receiver = some (ChanItem.msg tx :: rest) →
        s.last_priority = some lp → lp < tx.priority →
        s.try_recv = (none, { s with new_transaction_receiver := some rest }) ∧
          s.add_new_transactions = { s with new_transaction_receiver := some rest }) ∧
      (∀ (s : BestTransactions) (tx : PendingTransaction),
        mapLookup tx.transaction.id (s.insertNew tx).all = some tx ∧
          (s.ancestor tx.transaction.id = none →
            (s.insertNew tx).independent = setInsert tx s.independent) ∧
          ∀ a, s.ancestor tx.transaction.id = some a →
            (s.insertNew tx).independent = s.independent) ∧
      ∀ (s : BestTransactions) (sid n : Nat),
        BestTransactions.ancestor s { sender := sid, nonce := n + 1 } =
            mapLookup { sender := sid, nonce := n } s.all ∧
          BestTransactions.ancestor s { sender := sid, nonce := 0 } = none := by
  refine ⟨?_, ?_, ?_, fun s sid n => ⟨rfl, rfl⟩⟩
  · intro s tx rest hrec hpr
    have htr : s.try_recv = (some tx, { s with new_transaction_receiver := some rest }) := by
      unfold BestTransactions.try_recv
      rw [hrec]
      dsimp only
      cases hlp : s.last_priority with
      | none => simp [tryRecvGo]
      | some lp =>
        have hle := hpr lp hlp
        simp only [tryRecvGo]
        rw [if_neg (by omega)]
    exact ⟨htr, add_new_step_some htr⟩
  · intro s tx rest lp hrec hlp hgt
    have htr : s.try_recv = (none, { s with new_transaction_receiver := some rest }) := by
      unfold BestTransactions.try_recv
      rw [hrec]
      dsimp only
      rw [hlp]
      simp only [tryRecvGo]
      rw [if_pos hgt]
    exact ⟨htr, add_new_step_none htr⟩
  · intro s tx
    refine ⟨?_, ?_, ?_⟩
    · unfold BestTransactions.insertNew
      dsimp only
      split
      · exact mapLookup_insert_self _ _ _
      · exact mapLookup_insert_self _ _ _
    · intro hanc
      unfold BestTransactions.insertNew
      dsimp only
      rw [if_pos (by rw [hanc]; rfl)]
    · intro a hanc
      unfold BestTransactions.insertNew
      dsimp only
      rw [if_neg (by rw [hanc]; simp)]

/-- Accepting channel state: one delivered message below the last-yielded
priority. -/
def c6AccState : BestTransactions :=
  { all := [], independent := [], invalid := [],
    new_transaction_receiver := some [ChanItem.msg c1PTA], last_priority := some 7,
    skip_blobs := false }

/-- Rejecting channel state: the delivered message exceeds the last-yielded
priority. -/
def c6RejState : BestTransactions := { c6AccState with last_priority := some 3 }

theorem C6_live_update_drain_witness :
    (c6AccState.try_recv =
        (some c1PTA, { c6AccState with new_transaction_receiver := some [] }) ∧
      c6AccState.add_new_transactions =
        (BestTransactions.insertNew { c6AccState with new_transaction_receiver := some [] }
          c1PTA).add_new_transactions) ∧
      (c6RejState.try_recv =
          (none, { c6RejState with new_transaction_receiver := some [] }) ∧
        c6RejState.add_new_transactions =
          { c6RejState with new_transaction_receiver := some [] }) ∧
      mapLookup c1PTA.transaction.id (c1State.insertNew c1PTA).all = some c1PTA :=
  ⟨C6_live_update_drain.1 c6AccState c1PTA [] rfl
      (fun lp hlp => by
        have h2 : some 7 = some lp := hlp
        injection h2 with h3
        subst h3
        decide),
    C6_live_update_drain.2.1 c6RejState c1PTA [] 3 rfl rfl (by decide),
    (C6_live_update_drain.2.2.1 c1State c1PTA).1⟩

/-- C7: starting from the constructor state, the wrapper yields every inner
item exactly once (the collected output is a permutation of the inner
sequence); the running prioritized gas total never exceeds
max_prioritized_gas and grows exactly by the gas limit of a transaction
returned ahead of the buffer; and once the gas cap is reached, or once the
inner iterator is exhausted, the buffered transactions are replayed in
their original relative order. -/
theorem C7_prioritized_senders :
    (∀ (senders : List Nat) (maxGas : Nat) (inner : List Transaction) (fuel : Nat),
        inner.length ≤ fuel →
        (collectPrioritized fuel
            (BestTransactionsWithPrioritizedSenders.new senders maxGas inner)).Perm inner) ∧
      (∀ (s : BestTransactionsWithPrioritizedSenders) (t : Transaction)
          (s1 : BestTransactionsWithPrioritizedSenders),
        s.prioritized_gas ≤ s.max_prioritized_gas → s.next = some (t, s1) →
        s1.prioritized_gas ≤ s.max_prioritized_gas ∧
          (s1.prioritized_gas = s.prioritized_gas ∨
            s1.prioritized_gas = s.prioritized_gas + t.gas_limit)) ∧
      (∀ (fuel : Nat) (s : BestTransactionsWithPrioritizedSenders),
        s.max_prioritized_gas ≤ s.prioritized_gas →
        s.buffer.length + s.inner.length ≤ fuel →
        collectPrioritized fuel s = s.buffer ++ s.inner) ∧
      ∀ (fuel : Nat) (s : BestTransactionsWithPrioritizedSenders),
        s.inner = [] → s.buffer.length ≤ fuel → collectPrioritized fuel s = s.buffer := by
  refine ⟨?_, ?_, collect_prio_cap, collect_prio_inner_empty⟩
  · intro senders maxGas inner fuel hlen
    have h := collect_prio_perm fuel
      (BestTransactionsWithPrioritizedSenders.new senders maxGas inner)
      (by simpa [BestTransactionsWithPrioritizedSenders.new] using hlen)
    simpa using h
  · intro s t s1 hle hn
    have h := prio_next_some hn
    rcases h.2.2.2 with hsame | ⟨heq, hcap⟩
    · rw [hsame]
      exact ⟨hle, Or.inl rfl⟩
    · exact ⟨hcap, Or.inr heq⟩

/-- A non-prioritized transaction from sender 2. -/
def c7T1 : Transaction :=
  { hash := 70, sender_id := 2, sender := 2, nonce := 0, gas_limit := 50,
    max_fee_per_gas := 100, max_fee_per_blob_gas := none, is_eip4844 := false }

/-- A prioritized transaction from sender 1. -/
def c7T2 : Transaction := { c7T1 with hash := 71, sender_id := 1, sender := 1, gas_limit := 30 }

/-- Inner sequence for the prioritized-senders witnesses. -/
def c7Inner : List Transaction := [c7T1, c7T2]

/-- Fresh wrapper over the witness inner sequence with sender 1
prioritized. -/
def c7New : BestTransactionsWithPrioritizedSenders :=
  BestTransactionsWithPrioritizedSenders.new [1] 100 c7Inner

/-- The wrapper state after the prioritized pick: the skipped item is
buffered and 30 gas is accounted. -/
def c7S1 : BestTransactionsWithPrioritizedSenders :=
  { inner := [], prioritized_senders := [1], max_prioritized_gas := 100,
    buffer := [c7T1], prioritized_gas := 30 }

/-- A wrapper state whose gas cap is already reached. -/
def c7Capped : BestTransactionsWithPrioritizedSenders :=
  { inner := [c7T1], prioritized_senders := [1], max_prioritized_gas := 10,
    buffer := [c7T2], prioritized_gas := 10 }

theorem C7_prioritized_senders_witness :
    (collectPrioritized 2 c7New).Perm c7Inner ∧
      (c7S1.prioritized_gas ≤ c7New.max_prioritized_gas ∧
        (c7S1.prioritized_gas = c7New.prioritized_gas ∨
          c7S1.prioritized_gas = c7New.prioritized_gas + c7T2.gas_limit)) ∧
      collectPrioritized 2 c7Capped = c7Capped.buffer ++ c7Capped.inner ∧
      collectPrioritized 1 { c7Capped with inner := [] } = c7Capped.buffer :=
  ⟨C7_prioritized_senders.1 [1] 100 c7Inner 2 (by decide),
    C7_prioritized_senders.2.1 c7New c7T2 c7S1 (by decide) (by decide),
    C7_prioritized_senders.2.2.1 2 c7Capped (by decide) (by decide),
    C7_prioritized_senders.2.2.2 1 { c7Capped with inner := [] } rfl (by decide)⟩

/-- C8: a Lagged marker at the head of the channel is skipped and draining
continues within the same try_recv call (no error, no await); a channel
containing only Lagged markers leaves next entirely unaffected — the
iterator still yields the same snapshot transactions as with a drained
channel. -/
theorem C8_lagged_resilient :
    (∀ (s : BestTransactions) (rest : List ChanItem),
        s.new_transaction_receiver = some (ChanItem.lagged :: rest) →
        s.try_recv = ({ s with new_transaction_receiver := some rest }).try_recv) ∧
      ∀ (fuel : Nat) (s : BestTransactions) (items : List ChanItem),
        s.new_transaction_receiver = some items → (∀ i ∈ items, i = ChanItem.lagged) →
        BestTransactions.next (fuel + 1) s =
          BestTransactions.next (fuel + 1) { s with new_transaction_receiver := some [] } := by
  constructor
  · intro s rest hrec
    unfold BestTransactions.try_recv
    rw [hrec]
    dsimp only
    simp only [tryRecvGo]
  · intro fuel s items hrec hall
    simp only [BestTransactions.next]
    rw [add_new_all_lagged hrec hall]
    rw [add_new_chanLen_zero
      (show BestTransactions.chanLen { s with new_transaction_receiver := some [] } = 0
        from rfl)]

/-- A state whose channel contains only Lagged markers, with a pending
snapshot transaction still to yield. -/
def c8State : BestTransactions :=
  { all := [({ sender := 1, nonce := 0 }, c1PTA)], independent := [c1PTA], invalid := [],
    new_transaction_receiver := some [ChanItem.lagged, ChanItem.lagged],
    last_priority := some 7, skip_blobs := false }

theorem C8_lagged_resilient_witness :
    c8State.try_recv =
        ({ c8State with new_transaction_receiver := some [ChanItem.lagged] }).try_recv ∧
      BestTransactions.next 3 c8State =
        BestTransactions.next 3 { c8State with new_transaction_receiver := some [] } :=
  ⟨C8_lagged_resilient.1 c8State [ChanItem.lagged] rfl,
    C8_lagged_resilient.2 2 c8State [ChanItem.lagged, ChanItem.lagged] rfl (by decide)⟩

/-- C9 counterexample: the invariant that every independent entry is stored
in all under its id holds of a well-formed state whose channel delivers a
replacement (same TransactionId, different transaction) of the snapshot
chain head, and add_new_transactions breaks it: the replacement overwrites
the all entry while the old element is still in independent. -/
theorem C9_counterexample :
    IndepInAll c9State ∧ WfAll c9State ∧ c9State.independent.Nodup ∧
      ¬ IndepInAll c9State.add_new_transactions := by
  decide

/-- C9 (amended): pop_best removes the popped transaction from independent
and from all together and preserves the invariant; mark_invalid,
no_updates and set_skip_blobs preserve it; the insertion step of
add_new_transactions preserves it provided the received transaction does
not share its TransactionId with a different element of independent (the
counterexample shows a channel-delivered replacement otherwise breaks it);
and with no live-update receiver and a well-formed all map, next preserves
the invariant. -/
theorem C9_invariant_amended :
    (∀ (s : BestTransactions) (best : PendingTransaction) (s1 : BestTransactions),
        IndepInAll s → s.independent.Nodup → s.pop_best = (some best, s1) →
        IndepInAll s1 ∧ s1.independent.Nodup ∧
          mapLookup best.transaction.id s1.all = none ∧ best ∉ s1.independent) ∧
      (∀ (s : BestTransactions) (t : Transaction) (b : Bool), IndepInAll s →
        IndepInAll (s.mark_invalid t) ∧ IndepInAll s.no_updates ∧
          IndepInAll (s.set_skip_blobs b)) ∧
      (∀ (s : BestTransactions) (tx : PendingTransaction),
        IndepInAll s → s.independent.Nodup →
        (∀ p ∈ s.independent, p.transaction.id = tx.transaction.id → p = tx) →
        IndepInAll (s.insertNew tx) ∧ (s.insertNew tx).independent.Nodup) ∧
      ∀ (fuel : Nat) (s : BestTransactions),
        s.new_transaction_receiver = none → WfAll s → IndepInAll s → s.independent.Nodup →
        IndepInAll (BestTransactions.next fuel s).2 ∧
          (BestTransactions.next fuel s).2.independent.Nodup := by
  refine ⟨fun s best s1 hInv hnd h => pop_best_IndepInAll hInv hnd h, ?_, ?_, ?_⟩
  · intro s t b hInv
    refine ⟨mark_IndepInAll t hInv, ?_, ?_⟩
    · intro p hp2
      exact hInv p hp2
    · intro p hp2
      exact hInv p hp2
  · intro s tx hInv hnd hcol
    exact insertNew_IndepInAll hInv hnd hcol
  · intro fuel s hrec hwf hInv hnd
    have h := next_IndepInAll fuel s hrec hwf hInv hnd
    exact ⟨h.1, h.2.1⟩

/-- The state after popping the best element of the two-transaction
snapshot. -/
def c9PopAfter : BestTransactions :=
  { c1State with
    independent := []
    all := mapRemove c1PTA.transaction.id c1State.all }

theorem C9_invariant_amended_witness :
    (IndepInAll c9PopAfter ∧ c9PopAfter.independent.Nodup ∧
        mapLookup c1PTA.transaction.id c9PopAfter.all = none ∧
        c1PTA ∉ c9PopAfter.independent) ∧
      IndepInAll (c1State.mark_invalid c1TxA) ∧
      IndepInAll (c1State.insertNew c1PTB) ∧
      IndepInAll (BestTransactions.next 4 c4State).2 :=
  ⟨C9_invariant_amended.1 c1State c1PTA c9PopAfter (by decide) (by decide) (by decide),
    (C9_invariant_amended.2.1 c1State c1TxA false (by decide)).1,
    (C9_invariant_amended.2.2.1 c1State c1PTB (by decide) (by decide) (by decide)).1,
    (C9_invariant_amended.2.2.2 4 c4State rfl (by decide) (by decide) (by decide)).1⟩

/-- C10: for every predicate, the filter yields only transactions
satisfying it; a failing candidate is not yielded and the loop continues
with the candidate's sender marked invalid in the inner iterator, whose
next then never yields a transaction of that sender — rejection cascades
to the sender's remaining chain. -/
theorem C10_filter_cascade :
    (∀ (p : Transaction → Bool) (b : BestTransactions) (fuel innerFuel : Nat)
        (t : Transaction) (s1 : BestTransactionFilter),
        BestTransactionFilter.next fuel innerFuel { best := b, predicate := p } =
          (some t, s1) → p t = true) ∧
      (∀ (p : Transaction → Bool) (b : BestTransactions) (fuel innerFuel : Nat)
          (tx : Transaction) (b1 : BestTransactions),
        BestTransactions.next innerFuel b = (some tx, b1) → p tx = false →
        BestTransactionFilter.next (fuel + 1) innerFuel { best := b, predicate := p } =
            BestTransactionFilter.next fuel innerFuel
              { best := b1.mark_invalid tx, predicate := p } ∧
          tx.sender_id ∈ (b1.mark_invalid tx).invalid) ∧
      ∀ (fuel : Nat) (s : BestTransactions) (sid : Nat) (t : Transaction)
        (s1 : BestTransactions),
        sid ∈ s.invalid → BestTransactions.next fuel s = (some t, s1) → t.sender_id ≠ sid := by
  refine ⟨?_, ?_, ?_⟩
  · intro p b fuel innerFuel t s1 h
    exact filter_next_pred fuel innerFuel { best := b, predicate := p } t s1 h
  · intro p b fuel innerFuel tx b1 hn hf
    exact ⟨filter_skip_step fuel innerFuel { best := b, predicate := p } tx b1 hn hf,
      mark_invalid_self_mem b1 tx⟩
  · intro fuel s sid t s1 hmem hn
    exact (next_invalid_mem fuel s hmem).2 t (by rw [hn])

theorem C10_filter_cascade_witness :
    (fun t : Transaction => decide (t.max_fee_per_gas ≥ 10)) c1TxA = true ∧
      c2LowTx.sender_id ∈ (c2FailAfter.mark_invalid c2LowTx).invalid ∧
      c1TxA.sender_id ≠ 9 :=
  ⟨C10_filter_cascade.1 (fun t : Transaction => decide (t.max_fee_per_gas ≥ 10)) c1State 1 1
      c1TxA (BestTransactionFilter.next 1 1
        { best := c1State, predicate := fun t : Transaction => decide (t.max_fee_per_gas ≥ 10) }).2
      rfl,
    (C10_filter_cascade.2.1 (fun _ : Transaction => false) c2FailBest 1 1 c2LowTx c2FailAfter
      (by decide) rfl).2,
    C10_filter_cascade.2.2 1 c2InvState 9 c1TxA (BestTransactions.next 1 c2InvState).2
      (by decide) (by decide)⟩
